import Mathlib

/-!
Verification development for the `ashare-etf-rotator` repository.

The core decision and simulation logic of the repository is shallowly
embedded here, translated from the Python sources:

- `src/core/utils.py` (weekly-period helpers),
- `src/app/strategy.py` (`RiskGate`, `compute_score`, `pick_best_equity`,
  `target_weights`),
- `src/app/costs.py` (`CostModel.estimate_for_rebalance`),
- `src/app/paper.py` (`PaperAccount`, `run_paper_once`),
- `src/app/backtest.py` (`RunWeeklyAfterFriday` trigger).

Modelling conventions:
- Python floats are modelled as rationals (`ℚ`); only comparisons,
  field arithmetic, `max`, `abs` and `floor` occur in the embedded code,
  all of which are exact on `ℚ`.  The float sentinel `-inf` used by
  `compute_score` is modelled by the bottom element of `WithBot ℚ`.
- Python dicts are modelled as insertion-ordered association lists with
  unique keys (`dset` overwrites in place, otherwise appends, exactly as
  dict assignment does).
- `pandas` timestamps are modelled as integer day numbers with day `0`
  being Thursday 1970-01-01 (the Unix epoch), matching `pd.Timestamp`
  arithmetic at day granularity.
- Fallible code (`raise`) is modelled with `Except String`.
-/

namespace Rotator

set_option maxRecDepth 8000

/-- Symbols are plain strings (ETF codes). -/
abbrev Sym := String

/-- A trading date, as a day number since the Unix epoch (day 0 = Thursday). -/
abbrev Date := Int

/-! ### Python dict primitives (insertion-ordered association lists) -/

/-- `m.get(k)` on a Python dict: the value bound to `k`, if any. -/
def dget {α : Type} (m : List (Sym × α)) (k : Sym) : Option α :=
  (m.find? (fun p => p.1 == k)).map (·.2)

/-- `m.get(k, v)` on a Python dict: the value bound to `k`, or the default `v`. -/
def dgetD {α : Type} (m : List (Sym × α)) (k : Sym) (v : α) : α :=
  (dget m k).getD v

/-- `m[k] = v` on a Python dict: overwrite in place if the key exists,
otherwise append at the end (dicts preserve insertion order). -/
def dset {α : Type} (m : List (Sym × α)) (k : Sym) (v : α) : List (Sym × α) :=
  if (m.find? (fun p => p.1 == k)).isSome then
    m.map (fun p => if p.1 == k then (k, v) else p)
  else
    m ++ [(k, v)]

/-- `list(m.keys())` on a Python dict. -/
def dkeys {α : Type} (m : List (Sym × α)) : List Sym := m.map (·.1)

/-- `list(dict.fromkeys(l))`: deduplicate keeping first occurrences in order. -/
def dedupFirst : List Sym → List Sym
  | [] => []
  | s :: rest => s :: (dedupFirst rest).filter (fun t => t != s)

/-- Python sequence indexing `l[i]` with negative-index wrap-around:
`l[-1]` is the last element.  Out-of-range indices give `none`
(an `IndexError` in Python). -/
def pyGet {α : Type} (l : List α) (i : Int) : Option α :=
  if 0 ≤ i then l.get? i.toNat
  else if 0 ≤ i + l.length then l.get? (i + l.length).toNat
  else none

/-! ### Weekly periods (`src/core/utils.py`)

`pd.DatetimeIndex.to_period("W-FRI")` maps each date to the weekly period
that ends on the Friday on or after it; two dates share a period exactly
when they fall in the same Saturday-to-Friday window.  With day 0 being a
Thursday, day numbers 2..8 (Saturday..Friday) form one period, so the
period index of day `d` is `⌊(d - 2) / 7⌋`. -/

/-- The `W-FRI` weekly period containing day `d`. -/
def wfriPeriod (d : Date) : Int := (d - 2).fdiv 7

/-- `first_day_after_week_end` (src/core/utils.py).  The source computes
`prev = periods.shift(1)` on the `PeriodIndex` itself, and a
`PeriodIndex` shift is *temporal* — it adds one week to every element, it
is not a positional lag — so `periods != prev` compares each date's
period with that same period plus one week and is elementwise true;
`flag.iloc[0] = False` then forces the first entry off.  The flag is
therefore false at the first date and true at every later one. -/
def first_day_after_week_end (idx : List Date) : List Bool :=
  let periods := idx.map wfriPeriod
  let prev := periods.map (fun p => p + 1)
  let flag := (periods.zip prev).map (fun q => q.1 != q.2)
  match flag with
  | [] => []
  | _ :: rest => false :: rest

/-! ### RiskGate (`src/app/strategy.py`) -/

/-- The three risk regimes of the gate. -/
inductive RiskState
  | NORMAL
  | DE_RISK
  | CIRCUIT_COOLDOWN
deriving DecidableEq, Repr

/-- The drawdown-triggered risk gate: thresholds, cooldown length, and the
mutable state `(state, cooldown_left)`. -/
structure RiskGate where
  derisk_drawdown : ℚ
  circuit_drawdown : ℚ
  cooldown_weeks : Int
  state : RiskState := RiskState.NORMAL
  cooldown_left : Int := 0
deriving DecidableEq, Repr

/-- `RiskGate.next_state`: candidate regime for a drawdown value.  While in
`CIRCUIT_COOLDOWN` with `cooldown_left > 0` the regime is pinned; otherwise
it is re-evaluated from the thresholds. -/
def RiskGate.next_state (g : RiskGate) (drawdown : ℚ) : RiskState :=
  if g.state = RiskState.CIRCUIT_COOLDOWN ∧ g.cooldown_left > 0 then
    RiskState.CIRCUIT_COOLDOWN
  else if drawdown ≥ g.circuit_drawdown then RiskState.CIRCUIT_COOLDOWN
  else if drawdown ≥ g.derisk_drawdown then RiskState.DE_RISK
  else RiskState.NORMAL

/-- `RiskGate.on_rebalance`: called once per rebalance signal; returns the
updated gate together with the `changed` report.  The Python method mutates
`self` and returns `(new_state, changed)`; here the new state is carried in
the returned gate. -/
def RiskGate.on_rebalance (g : RiskGate) (drawdown : ℚ) : RiskGate × Bool :=
  let prev := g.state
  let new := g.next_state drawdown
  if new = RiskState.CIRCUIT_COOLDOWN ∧ prev ≠ RiskState.CIRCUIT_COOLDOWN then
    ({ g with cooldown_left := max (g.cooldown_weeks - 1) 0,
              state := RiskState.CIRCUIT_COOLDOWN }, true)
  else if prev = RiskState.CIRCUIT_COOLDOWN ∧ g.cooldown_left > 0 then
    ({ g with cooldown_left := g.cooldown_left - 1,
              state := RiskState.CIRCUIT_COOLDOWN }, false)
  else
    ({ g with state := new }, decide (new ≠ prev))

/-! ### CostModel (`src/app/costs.py`) -/

/-- Transaction-cost parameters. -/
structure CostModel where
  commission_rate : ℚ
  min_commission : ℚ
  stamp_tax_rate : ℚ
  slippage_bps : ℚ
deriving Repr

/-- One trade intent handed to the cost model
(`{"symbol": ..., "trade_value": ..., "sell_value": ...}`). -/
structure TradeIntent where
  symbol : Sym
  trade_value : ℚ
  sell_value : ℚ
deriving Repr

/-- `CostModel.estimate_for_rebalance`: sums, over the trades with positive
`trade_value`, the commission (floored at `min_commission` per traded
symbol), the stamp tax on the sell portion and the slippage. -/
def CostModel.estimate_for_rebalance (cm : CostModel) (trades : List TradeIntent) : ℚ :=
  trades.foldl
    (fun total t =>
      if t.trade_value ≤ 0 then total
      else total + (max (t.trade_value * cm.commission_rate) cm.min_commission
             + t.sell_value * cm.stamp_tax_rate
             + t.trade_value * (cm.slippage_bps / 10000)))
    0

/-! ### ScoreEngine (`compute_score` in `src/app/strategy.py`)

The daily close table is modelled as a list of dates plus a price lookup;
a missing price plays the role of `NaN` (the loaders drop or skip them).
The sample standard deviation used for the weekly volatility is an
irrational-valued operation (a square root); it is taken as an explicit
function parameter `std` of the embedding — no claim in this development
depends on its value, and all theorems below hold for every such
function. -/

/-- A date-indexed close-price table, one column per symbol. -/
structure PriceTable where
  dates : List Date
  price : Date → Sym → Option ℚ

/-- `prices.loc[:signal_date][s].dropna()`: the available `(date, close)`
pairs of symbol `s` up to and including the signal date, in date order. -/
def serUpTo (pt : PriceTable) (signal : Date) (s : Sym) : List (Date × ℚ) :=
  pt.dates.filterMap (fun d =>
    if d ≤ signal then (pt.price d s).map (fun p => (d, p)) else none)

/-- Last observation of `ser` inside the weekly period `p`
(`resample("W-FRI").last()` for one bin; `none` models an empty bin's NaN). -/
def binLast (ser : List (Date × ℚ)) (p : Int) : Option ℚ :=
  ((ser.filter (fun x => wfriPeriod x.1 == p)).getLast?).map (·.2)

/-- `ser.resample("W-FRI").last()`: one bin per weekly period from the first
to the last observed period (empty bins give `none`, pandas' NaN). -/
def weeklyBins (ser : List (Date × ℚ)) : List (Option ℚ) :=
  match ser.head?, ser.getLast? with
  | some a, some b =>
      (List.range ((wfriPeriod b.1 - wfriPeriod a.1).toNat + 1)).map
        (fun i => binLast ser (wfriPeriod a.1 + i))
  | _, _ => []

/-- `.pct_change().dropna()` on the weekly bins, modelled as: the return
between two consecutive bins survives only when both bins are non-empty.
(`pct_change`'s default `fill_method='pad'` forward-fills an empty bin
from the previous one, which would yield additional zero returns across
gaps; no theorem below depends on the volatility value, which also flows
through the opaque `std` parameter.) -/
def pctChangeDropna : List (Option ℚ) → List ℚ
  | [] => []
  | [_] => []
  | a :: b :: rest =>
    match a, b with
    | some x, some y => (y / x - 1) :: pctChangeDropna (b :: rest)
    | _, _ => pctChangeDropna (b :: rest)

/-- Per-symbol score body of `compute_score`: momentum over the last
`momentum_lookback_days` daily closes divided by the floored weekly
volatility; `⊥` is the `float("-inf")` sentinel for insufficient history. -/
def computeScoreOne (std : List ℚ → ℚ) (pt : PriceTable) (signal : Date)
    (momentum_lookback_days vol_lookback_weeks : Nat) (vol_floor : ℚ)
    (s : Sym) : WithBot ℚ :=
  let ser := serUpTo pt signal s
  if ser.length < momentum_lookback_days + 1 then ⊥
  else
    let lastPx := (ser.getLast?.map (·.2)).getD 0
    let basePx := ((ser.get? (ser.length - 1 - momentum_lookback_days)).map (·.2)).getD 0
    let mom := lastPx / basePx - 1
    let weekly := pctChangeDropna (weeklyBins ser)
    if weekly.length < vol_lookback_weeks then ⊥
    else
      let vol := max (std (weekly.drop (weekly.length - vol_lookback_weeks))) vol_floor
      ((mom / vol : ℚ) : WithBot ℚ)

/-- One step of the descending sort: insert `x` in front of the first
element whose score is not greater than `x`'s, so that equal scores keep
their existing relative order. -/
def insertDesc (x : Sym × WithBot ℚ) : List (Sym × WithBot ℚ) → List (Sym × WithBot ℚ)
  | [] => [x]
  | y :: ys => if x.2 < y.2 then y :: insertDesc x ys else x :: y :: ys

/-- `pd.Series(scores).sort_values(ascending=False)` with the default
`kind='quicksort'`.  The model is a descending insertion sort: a correct
descending reordering of the entries.  numpy's quicksort argsort kernel
guarantees only the ordering, not stability — it degenerates to a stable
insertion sort only on partitions of at most ~15 elements — so the tie
order of larger inputs is implementation-defined inside numpy and is not
captured by this model; no theorem below relies on tie order. -/
def sortDesc : List (Sym × WithBot ℚ) → List (Sym × WithBot ℚ)
  | [] => []
  | x :: xs => insertDesc x (sortDesc xs)

/-- `compute_score` (src/app/strategy.py): build the per-symbol score dict
in candidate order (duplicate candidates overwrite their own entry, as in
a dict) and sort it descending by score. -/
def compute_score (std : List ℚ → ℚ) (pt : PriceTable) (symbols : List Sym)
    (signal : Date) (momentum_lookback_days vol_lookback_weeks : Nat)
    (vol_floor : ℚ) : List (Sym × WithBot ℚ) :=
  sortDesc ((dedupFirst symbols).map
    (fun s => (s, computeScoreOne std pt signal momentum_lookback_days
                    vol_lookback_weeks vol_floor s)))

/-- `pick_best_equity`: the top-scoring symbol, or the fallback when the
score list is empty or the top score is not finite (`-inf` here). -/
def pick_best_equity (scores : List (Sym × WithBot ℚ)) (fallback : Sym) : Sym :=
  match scores with
  | [] => fallback
  | (s, v) :: _ => if v = ⊥ then fallback else s

/-! ### WeightPolicy (`target_weights` in `src/app/strategy.py`) -/

/-- `target_weights`: regime to target-weight dict.  The `DE_RISK` branch
builds the dict literal `{winner: ew, defensive: 1 - ew}`, so when the two
symbols coincide the second assignment overwrites the first, exactly as in
Python. -/
def target_weights (state : RiskState) (equity_symbol defensive_symbol : Sym)
    (normal_equity_weight derisk_equity_weight : ℚ) : List (Sym × ℚ) :=
  if state = RiskState.CIRCUIT_COOLDOWN then [(defensive_symbol, 1)]
  else if state = RiskState.DE_RISK then
    dset (dset [] equity_symbol derisk_equity_weight)
      defensive_symbol (1 - derisk_equity_weight)
  else [(equity_symbol, normal_equity_weight)]

/-! ### PaperTradingDriver (`src/app/paper.py`)

`run_paper_once` is embedded as a pure function.  The price table stands
for the output of `_load_prices` (per-symbol parquet columns, sorted,
forward-filled, rows with any missing symbol dropped), the stored account
stands for the JSON file at `account_path` (`none` when the file does not
exist), and "persisting" the account is returning it.  Prices absent from
the table (`NaN` in Python) are `none`; the two places where the Python
code indexes a row directly (`px_trade[s]`, guaranteed present after
`_load_prices` for configured symbols) use `.getD 0`. -/

/-- The persisted paper-trading account (`PaperAccount` in `src/app/paper.py`);
the `gate` dict is flattened into its two fields. -/
structure PaperAccount where
  as_of : Option Date
  cash : ℚ
  positions : List (Sym × Int)
  equity_peak : ℚ
  gate_state : RiskState
  gate_cooldown_left : Int
  history : List (Date × ℚ)
deriving Repr

/-- `PaperAccount.new`: fresh account with the configured initial capital
and a `NORMAL` gate. -/
def PaperAccount.new (initial_capital : ℚ) : PaperAccount :=
  { as_of := none, cash := initial_capital, positions := [],
    equity_peak := initial_capital, gate_state := RiskState.NORMAL,
    gate_cooldown_left := 0, history := [] }

/-- `_account_value`: cash plus the value of each held position whose price
is available on the row (missing prices are skipped, as `np.isfinite`
filters the NaN defaults). -/
def account_value (positions : List (Sym × Int)) (cash : ℚ)
    (row : Sym → Option ℚ) : ℚ :=
  positions.foldl
    (fun v p => match row p.1 with
      | some px => v + (p.2 : ℚ) * px
      | none => v)
    cash

/-- History backfill of `run_paper_once`: mark-to-market every table date
strictly after `as_of` and up to the signal date that is not already in
the history (the set of existing dates is computed once, before the loop),
appending the valuation and raising the equity peak. -/
def backfillHistory (pt : PriceTable) (signal_dt : Date) (a : PaperAccount) :
    PaperAccount :=
  match a.as_of with
  | none => a
  | some last_as_of =>
    let fill_dates := pt.dates.filter
      (fun d => decide (last_as_of < d) && decide (d ≤ signal_dt))
    let existing := a.history.map Prod.fst
    fill_dates.foldl
      (fun acc d =>
        if existing.contains d then acc
        else
          let v := account_value acc.positions acc.cash (pt.price d)
          { acc with history := acc.history ++ [(d, v)],
                     equity_peak := max acc.equity_peak v })
      a

/-- Current discrete-position weights at the trade date: share of the
pre-trade total value for each configured symbol (0 for empty or short
positions, and 0 throughout when the pre-trade value is not positive). -/
def currentWeights (symbols : List Sym) (pre_positions : List (Sym × Int))
    (px_trade : Sym → Option ℚ) (pre_value : ℚ) : List (Sym × ℚ) :=
  symbols.map (fun s =>
    let sh := dgetD pre_positions s 0
    if sh ≤ 0 then (s, 0)
    else (s, if pre_value > 0 then ((sh : ℚ) * (px_trade s).getD 0) / pre_value
             else 0))

/-- Whole-share targets: `floor(pre_value * weight / price)` per target
symbol (0 on a non-positive price), then an explicit 0-share target for
every currently held symbol absent from the target dict. -/
def targetSharesOf (tw : List (Sym × ℚ)) (pre_positions : List (Sym × Int))
    (px_trade : Sym → Option ℚ) (pre_value : ℚ) : List (Sym × Int) :=
  let base := tw.map (fun p =>
    let px := (px_trade p.1).getD 0
    (p.1, if px > 0 then ⌊pre_value * p.2 / px⌋ else 0))
  (dkeys pre_positions).foldl
    (fun m s => if (dkeys m).contains s then m else m ++ [(s, (0 : Int))])
    base

/-- Blotter actions of the execution loop. -/
inductive TradeAction
  | SELL
  | BUY
  | HOLD
deriving DecidableEq, Repr

/-- One entry of the `trades` list built during execution
(`(symbol, action, cur, tgt, delta, px, cost)` in the Python code). -/
structure TradeRec where
  symbol : Sym
  action : TradeAction
  cur : Int
  tgt : Int
  delta : Int
  px : ℚ
  cost : ℚ
deriving DecidableEq, Repr

/-- The mutable state threaded through the sell/buy loops: cash, the live
positions dict, the per-symbol cost accumulator and the trade list. -/
structure ExecState where
  cash : ℚ
  positions : List (Sym × Int)
  cost_by_symbol : List (Sym × ℚ)
  trades : List TradeRec
deriving Repr

/-- `est_cost_for`: the cost model applied to the single-trade list. -/
def estCostFor (cm : CostModel) (s : Sym) (dv sv : ℚ) : ℚ :=
  cm.estimate_for_rebalance [⟨s, dv, sv⟩]

/-- The SELL loop: for each target entry whose delta is negative and whose
trade-date price is available and positive, sell at the close, credit
`proceeds - cost`, write the new share count and record a SELL row. -/
def sellPhase (cm : CostModel) (px_trade : Sym → Option ℚ)
    (pre_positions : List (Sym × Int)) (target_shares : List (Sym × Int))
    (st : ExecState) : ExecState :=
  target_shares.foldl
    (fun st p =>
      let s := p.1
      let tgt := p.2
      let cur := dgetD st.positions s (dgetD pre_positions s 0)
      let delta := tgt - cur
      if delta ≥ 0 then st
      else match px_trade s with
        | none => st
        | some px =>
          if px ≤ 0 then st
          else
            let sell_shares := -delta
            let sell_value := (sell_shares : ℚ) * px
            let cost := estCostFor cm s sell_value sell_value
            { cash := st.cash + sell_value - cost,
              positions := dset st.positions s (cur - sell_shares),
              cost_by_symbol := dset st.cost_by_symbol s
                (dgetD st.cost_by_symbol s 0 + cost),
              trades := st.trades ++
                [⟨s, TradeAction.SELL, cur, tgt, delta, px, cost⟩] })
    st

/-- The affordability retry loop of a buy (`while buy > 0: ...`): try the
full count, and while `cash < value + cost - 1e-6` reduce the count by
one; `none` means the count reached zero without an affordable purchase. -/
def tryBuy (cm : CostModel) (s : Sym) (cash px : ℚ) : Nat → Option (Nat × ℚ)
  | 0 => none
  | b + 1 =>
    let buy := b + 1
    let buy_value := (buy : ℚ) * px
    let cost := estCostFor cm s buy_value 0
    let need := buy_value + cost
    if cash ≥ need - 1 / 1000000 then some (buy, cost)
    else tryBuy cm s cash px b

/-- The BUY loop: iterate the target symbols with the defensive symbol
moved to the end, and for each positive delta with an available positive
price run the retry loop; an affordable count debits `value + cost` and
records a BUY row, an exhausted loop records a zero-share HOLD row. -/
def buyPhase (cm : CostModel) (defensive_etf : Sym) (px_trade : Sym → Option ℚ)
    (pre_positions : List (Sym × Int)) (target_shares : List (Sym × Int))
    (st : ExecState) : ExecState :=
  let buy_syms :=
    if (dkeys target_shares).contains defensive_etf then
      (dkeys target_shares).erase defensive_etf ++ [defensive_etf]
    else dkeys target_shares
  buy_syms.foldl
    (fun st s =>
      let tgt := dgetD target_shares s 0
      let cur := dgetD st.positions s (dgetD pre_positions s 0)
      let delta := tgt - cur
      if delta ≤ 0 then st
      else match px_trade s with
        | none => st
        | some px =>
          if px ≤ 0 then st
          else
            match tryBuy cm s st.cash px delta.toNat with
            | some (buy, cost) =>
              { cash := st.cash - ((buy : ℚ) * px + cost),
                positions := dset st.positions s (cur + (buy : Int)),
                cost_by_symbol := dset st.cost_by_symbol s
                  (dgetD st.cost_by_symbol s 0 + cost),
                trades := st.trades ++
                  [⟨s, TradeAction.BUY, cur, tgt, (buy : Int), px, cost⟩] }
            | none =>
              let tgt2 := dgetD st.positions s cur
              { st with trades := st.trades ++
                  [⟨s, TradeAction.HOLD, cur, tgt2, 0, px, 0⟩] })
    st

/-- `{k: v for k, v in positions.items() if v != 0}`. -/
def cleanupPositions (m : List (Sym × Int)) : List (Sym × Int) :=
  m.filter (fun p => p.2 != 0)

/-- Risk-gate configuration (`risk_gate_cfg`). -/
structure RiskGateCfg where
  derisk_drawdown : ℚ
  circuit_drawdown : ℚ
  cooldown_weeks : Int
deriving Repr

/-- Allocation configuration (`allocation_cfg`). -/
structure AllocationCfg where
  normal_equity_weight : ℚ
  derisk_equity_weight : ℚ
deriving Repr

/-- Everything `run_paper_once` computes for one advance: the persisted
account, the execution trade list and the intermediate quantities the
blotter and the logs expose. -/
structure PaperResult where
  account : PaperAccount
  trades : List TradeRec
  trade_dt : Date
  signal_dt : Date
  pre_value : ℚ
  state : RiskState
  changed : Bool
deriving Repr

/-- The whole body of `run_paper_once` after the rebalance date has been
selected: history backfill, drawdown and gate advance, score / winner /
target weights, no-trade band, share targets, sells then buys, cleanup and
the final persisted account.  This part of the driver is total: no path
raises. -/
def paperSettle (std : List ℚ → ℚ) (pt : PriceTable)
    (symbols equity_etfs : List Sym) (e0 defensive_etf : Sym)
    (account0 : PaperAccount) (no_trade_band : ℚ)
    (momentum_lookback_days vol_lookback_weeks : Nat) (vol_floor : ℚ)
    (gcfg : RiskGateCfg) (alloc : AllocationCfg) (cm : CostModel)
    (trade_dt signal_dt : Date) : PaperResult :=
  let pre_positions := account0.positions
  let pre_cash := account0.cash
  let a1 := backfillHistory pt signal_dt account0
  let gate0 : RiskGate :=
    { derisk_drawdown := gcfg.derisk_drawdown,
      circuit_drawdown := gcfg.circuit_drawdown,
      cooldown_weeks := gcfg.cooldown_weeks,
      state := account0.gate_state,
      cooldown_left := account0.gate_cooldown_left }
  let signal_value := account_value a1.positions a1.cash (pt.price signal_dt)
  let peak1 := max a1.equity_peak signal_value
  let drawdown := if peak1 > 0 then 1 - signal_value / peak1 else 0
  let gc := gate0.on_rebalance drawdown
  let gate1 := gc.1
  let changed := gc.2
  let state := gate1.state
  let scores := compute_score std pt equity_etfs signal_dt
    momentum_lookback_days vol_lookback_weeks vol_floor
  let winner := pick_best_equity scores e0
  let tw0 := target_weights state winner defensive_etf
    alloc.normal_equity_weight alloc.derisk_equity_weight
  let px_trade := pt.price trade_dt
  let pre_value := account_value pre_positions pre_cash px_trade
  let current_weights := currentWeights symbols pre_positions px_trade pre_value
  let tw := tw0.map (fun p =>
    let cw := dgetD current_weights p.1 0
    if |p.2 - cw| < no_trade_band then (p.1, cw) else p)
  let target_shares := targetSharesOf tw pre_positions px_trade pre_value
  let st0 : ExecState :=
    { cash := pre_cash, positions := account0.positions,
      cost_by_symbol := [], trades := [] }
  let st1 := sellPhase cm px_trade pre_positions target_shares st0
  let st2 := buyPhase cm defensive_etf px_trade pre_positions target_shares st1
  let positions2 := cleanupPositions st2.positions
  let post_value := account_value positions2 st2.cash px_trade
  let accountF : PaperAccount :=
    { as_of := some trade_dt,
      cash := st2.cash,
      positions := positions2,
      equity_peak := max peak1 post_value,
      gate_state := gate1.state,
      gate_cooldown_left := gate1.cooldown_left,
      history := a1.history ++ [(trade_dt, post_value)] }
  { account := accountF, trades := st2.trades, trade_dt := trade_dt,
    signal_dt := signal_dt, pre_value := pre_value, state := state,
    changed := changed }

/-- Error message of `run_paper_once` when no weekly boundary exists in the
data at all. -/
def msgNoWeekly : String := "数据不足以形成周频再平衡日期（需要至少跨过一个周五）"

/-- Error message of `run_paper_once` when every rebalance date has already
been processed (`raise RuntimeError(...)`, propagated to the caller). -/
def msgUpToDate : String := "没有可执行的下一次再平衡日（账户已是最新）"

/-- `IndexError` stand-in for an out-of-range signal-date lookup. -/
def msgIndex : String := "IndexError"

/-- `IndexError` stand-in for `equity_etfs[0]` on an empty candidate list. -/
def msgNoEquity : String := "IndexError: equity_etfs[0]"

/-- `rebalance_dates = idx[rebalance_flag.values]`: the trading dates
whose weekly flag is set. -/
def rebalanceDatesOf (idx : List Date) : List Date :=
  (idx.zip (first_day_after_week_end idx)).filterMap
    (fun p => if p.2 then some p.1 else none)

/-- `run_paper_once` (src/app/paper.py): select the first weekly rebalance
date strictly after the account's `as_of` (all of them for a fresh
account), take the preceding trading day as the signal date, and run the
settlement body.  Every `raise` becomes an `Except.error`; on an error
nothing is persisted (the stored account is untouched). -/
def run_paper_once (std : List ℚ → ℚ) (pt : PriceTable)
    (equity_etfs : List Sym) (defensive_etf : Sym)
    (stored : Option PaperAccount) (initial_capital : ℚ)
    (no_trade_band : ℚ) (momentum_lookback_days vol_lookback_weeks : Nat)
    (vol_floor : ℚ) (gcfg : RiskGateCfg) (alloc : AllocationCfg)
    (cm : CostModel) : Except String PaperResult :=
  let symbols := dedupFirst (equity_etfs ++ [defensive_etf])
  let idx := pt.dates
  let rebalance_dates := rebalanceDatesOf idx
  if rebalance_dates.isEmpty then Except.error msgNoWeekly
  else
    let account := match stored with
      | some a => a
      | none => PaperAccount.new initial_capital
    let cand := match account.as_of with
      | some last => rebalance_dates.filter (fun d => decide (last < d))
      | none => rebalance_dates
    match cand with
    | [] => Except.error msgUpToDate
    | trade_dt :: _ =>
      let pos : Int := (idx.indexOf trade_dt : Int)
      match pyGet idx (pos - 1) with
      | none => Except.error msgIndex
      | some signal_dt =>
        match equity_etfs with
        | [] => Except.error msgNoEquity
        | e0 :: _ =>
          Except.ok (paperSettle std pt symbols equity_etfs e0 defensive_etf
            account no_trade_band momentum_lookback_days vol_lookback_weeks
            vol_floor gcfg alloc cm trade_dt signal_dt)

/-! ### Backtest weekly trigger (`RunWeeklyAfterFriday` in `src/app/backtest.py`) -/

/-- The backtest's weekly-rebalance trigger: at position `i = idx.get_loc(now)`,
fire only when `i > 0` and the weekly flag is set, and pass the previous
trading day's date as the signal date.  Returns the signal date when the
trigger fires. -/
def RunWeeklyAfterFriday (idx : List Date) (now : Date) : Option Date :=
  let flag := first_day_after_week_end idx
  let i : Int := (idx.indexOf now : Int)
  if i ≤ 0 then none
  else if ((pyGet flag i).getD false) = false then none
  else pyGet idx (i - 1)

/-! ## Theorems -/

/-! ### C2: the gate transition implements the spec's ordered rules -/

/-- Transition function transcribed from the spec's ordered rules (§4.3),
for comparison with the implementation: rule 1 (cooldown decrement with
"no regime change"), rule 2 (threshold candidate), rule 3 (fresh trip into
`CIRCUIT_COOLDOWN` arming `cooldown_left = max(cooldown_weeks - 1, 0)`),
rule 4 (adopt the candidate, changed iff it differs). -/
def specGateTransition (g : RiskGate) (drawdown : ℚ) : RiskGate × Bool :=
  if g.state = RiskState.CIRCUIT_COOLDOWN ∧ g.cooldown_left > 0 then
    ({ g with state := RiskState.CIRCUIT_COOLDOWN,
              cooldown_left := g.cooldown_left - 1 }, false)
  else
    let cand :=
      if drawdown ≥ g.circuit_drawdown then RiskState.CIRCUIT_COOLDOWN
      else if drawdown ≥ g.derisk_drawdown then RiskState.DE_RISK
      else RiskState.NORMAL
    if cand = RiskState.CIRCUIT_COOLDOWN ∧ g.state ≠ RiskState.CIRCUIT_COOLDOWN then
      ({ g with state := RiskState.CIRCUIT_COOLDOWN,
                cooldown_left := max (g.cooldown_weeks - 1) 0 }, true)
    else ({ g with state := cand }, decide (cand ≠ g.state))

/-- C2: for every gate state, cooldown counter and drawdown value,
`RiskGate.on_rebalance` returns exactly what the spec's ordered transition
rules prescribe: the cooldown-decrement rule (unchanged-reported), the
threshold candidate, the fresh-trip arming `max(cooldown_weeks - 1, 0)`
with `changed = true`, and otherwise adoption of the candidate with
`changed` iff it differs from the state at entry. -/
theorem C2_on_rebalance_matches_spec_rules (g : RiskGate) (drawdown : ℚ) :
    g.on_rebalance drawdown = specGateTransition g drawdown := by
  rcases g with ⟨dd, cd, cw, st, cl⟩
  rcases st <;>
    simp only [RiskGate.on_rebalance, RiskGate.next_state, specGateTransition] <;>
    split_ifs <;> simp_all

/-! ### C3: a deep drawdown does not re-arm an exhausted cooldown -/

/-- Repeated weekly gate calls over a list of drawdowns. -/
def iterGate (g : RiskGate) (ds : List ℚ) : RiskGate :=
  ds.foldl (fun g d => (g.on_rebalance d).1) g

/-- C3: from `CIRCUIT_COOLDOWN` with `cooldown_left = 0`, a drawdown still
at or above the circuit threshold leaves the gate exactly as it was
(state `CIRCUIT_COOLDOWN`, counter still 0, no change reported), and this
persists over every subsequent call while the drawdown stays at or above
the threshold: the cooldown is never re-armed by a persistently deep
drawdown. -/
theorem C3_cooldown_not_rearmed (g : RiskGate)
    (hst : g.state = RiskState.CIRCUIT_COOLDOWN) (hcl : g.cooldown_left = 0) :
    (∀ d : ℚ, g.circuit_drawdown ≤ d → g.on_rebalance d = (g, false)) ∧
    (∀ ds : List ℚ, (∀ d ∈ ds, g.circuit_drawdown ≤ d) → iterGate g ds = g) := by
  have hstep : ∀ d : ℚ, g.circuit_drawdown ≤ d → g.on_rebalance d = (g, false) := by
    intro d hd
    rcases g with ⟨dd, cd, cw, st, cl⟩
    simp only at hst hcl
    subst hst hcl
    simp only [RiskGate.on_rebalance, RiskGate.next_state] at *
    simp [ge_iff_le, hd]
  refine ⟨hstep, ?_⟩
  intro ds hds
  induction ds with
  | nil => rfl
  | cons d ds ih =>
    have h1 : g.on_rebalance d = (g, false) := hstep d (hds d (by simp))
    simp only [iterGate, List.foldl_cons, h1]
    exact ih (fun d hd => hds d (by simp [hd]))

/-- Witness for C3 at a concrete gate and drawdown sequence. -/
theorem C3_cooldown_not_rearmed_witness :
    ({ derisk_drawdown := 1/10, circuit_drawdown := 2/10, cooldown_weeks := 4,
       state := RiskState.CIRCUIT_COOLDOWN, cooldown_left := 0 : RiskGate }.on_rebalance (3/10)
        = ({ derisk_drawdown := 1/10, circuit_drawdown := 2/10, cooldown_weeks := 4,
             state := RiskState.CIRCUIT_COOLDOWN, cooldown_left := 0 : RiskGate }, false)) ∧
    iterGate
      { derisk_drawdown := 1/10, circuit_drawdown := 2/10, cooldown_weeks := 4,
        state := RiskState.CIRCUIT_COOLDOWN, cooldown_left := 0 } [3/10, 2/10, 9/10]
      = { derisk_drawdown := 1/10, circuit_drawdown := 2/10, cooldown_weeks := 4,
          state := RiskState.CIRCUIT_COOLDOWN, cooldown_left := 0 } := by
  constructor
  · exact (C3_cooldown_not_rearmed _ rfl rfl).1 (3/10) (by norm_num)
  · exact (C3_cooldown_not_rearmed _ rfl rfl).2 [3/10, 2/10, 9/10]
      (by
        intro d hd
        simp only [List.mem_cons, List.not_mem_nil, or_false] at hd
        rcases hd with h | h | h <;> subst h <;> norm_num)

/-! ### C5: `target_weights` per-regime mapping and weight range -/

/-- C5 counterexample: with a configured `normal_equity_weight` of 2 the
`NORMAL` branch returns the weight 2 unclamped, outside `[0, 1]` — the
configuration is passed through unvalidated, so the claim's universally
quantified range statement fails. -/
theorem C5_counterexample :
    target_weights RiskState.NORMAL "A" "B" 2 0 = [("A", (2 : ℚ))] ∧
    ¬ ((2 : ℚ) ≤ 1) :=
  ⟨rfl, by norm_num⟩

/-- C5 (amended): when the configured weights lie in `[0, 1]`,
`target_weights` returns only weights in `[0, 1]`; `CIRCUIT_COOLDOWN`
yields exactly `{defensive: 1.0}`, `DE_RISK` yields the dict literal
`{winner: derisk_weight, defensive: 1 - derisk_weight}` (whose defensive
entry overwrites the winner entry when the two symbols coincide), and
`NORMAL` yields `{winner: normal_weight}`. -/
theorem C5_target_weights (st : RiskState) (w d : Sym) (nw dw : ℚ)
    (hnw0 : 0 ≤ nw) (hnw1 : nw ≤ 1) (hdw0 : 0 ≤ dw) (hdw1 : dw ≤ 1) :
    (∀ p ∈ target_weights st w d nw dw, 0 ≤ p.2 ∧ p.2 ≤ 1) ∧
    (st = RiskState.CIRCUIT_COOLDOWN → target_weights st w d nw dw = [(d, 1)]) ∧
    (st = RiskState.DE_RISK →
      dget (target_weights st w d nw dw) d = some (1 - dw) ∧
      (w ≠ d → dget (target_weights st w d nw dw) w = some dw) ∧
      (∀ s ∈ dkeys (target_weights st w d nw dw), s = w ∨ s = d)) ∧
    (st = RiskState.NORMAL → target_weights st w d nw dw = [(w, nw)]) := by
  cases st with
  | NORMAL =>
    refine ⟨?_, by simp, by simp, fun _ => rfl⟩
    intro p hp
    have hlit : target_weights RiskState.NORMAL w d nw dw = [(w, nw)] := rfl
    rw [hlit] at hp
    simp only [List.mem_singleton] at hp
    subst hp
    exact ⟨hnw0, hnw1⟩
  | DE_RISK =>
    by_cases hwd : w = d
    · subst hwd
      have hlit : target_weights RiskState.DE_RISK w w nw dw = [(w, 1 - dw)] := by
        simp [target_weights, dset, List.find?]
      refine ⟨?_, by simp, ?_, by simp⟩
      · intro p hp
        rw [hlit] at hp
        simp only [List.mem_singleton] at hp
        subst hp
        exact ⟨by dsimp only; linarith, by dsimp only; linarith⟩
      · intro _
        refine ⟨?_, fun hne => absurd rfl hne, ?_⟩
        · rw [hlit]; simp [dget, List.find?]
        · intro s hs
          rw [hlit] at hs
          simp only [dkeys, List.map_cons, List.map_nil, List.mem_singleton] at hs
          exact Or.inl hs
    · have hbeq : (w == d) = false := beq_eq_false_iff_ne.mpr hwd
      have hlit : target_weights RiskState.DE_RISK w d nw dw =
          [(w, dw), (d, 1 - dw)] := by
        simp [target_weights, dset, List.find?, hbeq]
      refine ⟨?_, by simp, ?_, by simp⟩
      · intro p hp
        rw [hlit] at hp
        simp only [List.mem_cons, List.mem_singleton, List.not_mem_nil, or_false] at hp
        rcases hp with hp | hp <;> subst hp
        · exact ⟨hdw0, hdw1⟩
        · exact ⟨by dsimp only; linarith, by dsimp only; linarith⟩
      · intro _
        refine ⟨?_, fun _ => ?_, ?_⟩
        · rw [hlit]; simp [dget, List.find?, hbeq]
        · rw [hlit]; simp [dget, List.find?]
        · intro s hs
          rw [hlit] at hs
          simp only [dkeys, List.map_cons, List.map_nil, List.mem_cons,
            List.mem_singleton, List.not_mem_nil, or_false] at hs
          tauto
  | CIRCUIT_COOLDOWN =>
    refine ⟨?_, fun _ => rfl, by simp, by simp⟩
    intro p hp
    have hlit : target_weights RiskState.CIRCUIT_COOLDOWN w d nw dw = [(d, 1)] := rfl
    rw [hlit] at hp
    simp only [List.mem_singleton] at hp
    subst hp
    exact ⟨by norm_num, by norm_num⟩

/-- Witness for C5's amended theorem at concrete weights. -/
theorem C5_target_weights_witness :
    target_weights RiskState.DE_RISK "A" "B" (7/10) (3/10) = [("A", (3/10 : ℚ)), ("B", (7/10 : ℚ))] ∧
    dget (target_weights RiskState.DE_RISK "A" "B" (7/10) (3/10)) "B" = some (1 - 3/10) := by
  refine ⟨by norm_num [target_weights, dset, List.find?,
    show ("A" == "B") = false from by decide, show ¬("A" = "B") from by decide,
    show ¬(RiskState.DE_RISK = RiskState.CIRCUIT_COOLDOWN) from by decide], ?_⟩
  exact ((C5_target_weights RiskState.DE_RISK "A" "B" (7/10) (3/10)
    (by norm_num) (by norm_num) (by norm_num) (by norm_num)).2.2.1 rfl).1

/-! ### C8: cost model — empty list, per-trade formula, monotonicity -/

/-- Per-trade cost contribution as the spec's formula states it: nothing
for `trade_value ≤ 0`, otherwise commission floored at the minimum plus
stamp tax on the sell portion plus slippage. -/
def tradeCost (cm : CostModel) (t : TradeIntent) : ℚ :=
  if t.trade_value ≤ 0 then 0
  else max (t.trade_value * cm.commission_rate) cm.min_commission
       + t.sell_value * cm.stamp_tax_rate
       + t.trade_value * (cm.slippage_bps / 10000)

theorem estimate_foldl_general (cm : CostModel) (ts : List TradeIntent) :
    ∀ init : ℚ,
      ts.foldl
        (fun total t =>
          if t.trade_value ≤ 0 then total
          else total + (max (t.trade_value * cm.commission_rate) cm.min_commission
                 + t.sell_value * cm.stamp_tax_rate
                 + t.trade_value * (cm.slippage_bps / 10000))) init
        = init + (ts.map (tradeCost cm)).sum := by
  induction ts with
  | nil => intro init; simp
  | cons t ts ih =>
    intro init
    simp only [List.foldl_cons, List.map_cons, List.sum_cons]
    by_cases h : t.trade_value ≤ 0
    · rw [if_pos h, ih init, tradeCost, if_pos h]
      ring
    · rw [if_neg h, ih _, tradeCost, if_neg h]
      ring

/-- C8: `estimate_for_rebalance` is zero on the empty trade list; it equals
the sum of the spec's per-trade cost formula, trades with
`trade_value ≤ 0` contributing nothing; and for fixed nonnegative rates it
is monotonically non-decreasing in each trade's `trade_value` (holding the
symbols and the nonnegative sell values fixed). -/
theorem C8_cost_model (cm : CostModel)
    (hcr : 0 ≤ cm.commission_rate) (hmc : 0 ≤ cm.min_commission)
    (hst : 0 ≤ cm.stamp_tax_rate) (hsl : 0 ≤ cm.slippage_bps) :
    cm.estimate_for_rebalance [] = 0 ∧
    (∀ ts, cm.estimate_for_rebalance ts = (ts.map (tradeCost cm)).sum) ∧
    (∀ ts ts',
      List.Forall₂
        (fun t t' => t.sell_value = t'.sell_value ∧ 0 ≤ t.sell_value ∧
          t.trade_value ≤ t'.trade_value) ts ts' →
      cm.estimate_for_rebalance ts ≤ cm.estimate_for_rebalance ts') := by
  have hsum : ∀ ts, cm.estimate_for_rebalance ts = (ts.map (tradeCost cm)).sum := by
    intro ts
    have := estimate_foldl_general cm ts 0
    simpa [CostModel.estimate_for_rebalance] using this
  have hone : ∀ t t', t.sell_value = t'.sell_value → 0 ≤ t.sell_value →
      t.trade_value ≤ t'.trade_value → tradeCost cm t ≤ tradeCost cm t' := by
    intro t t' hsv hsv0 htv
    unfold tradeCost
    by_cases h' : t'.trade_value ≤ 0
    · rw [if_pos (le_trans htv h'), if_pos h']
    · rw [if_neg h']
      have h1 : (0:ℚ) ≤ max (t'.trade_value * cm.commission_rate) cm.min_commission :=
        le_trans hmc (le_max_right _ _)
      have h2 : (0:ℚ) ≤ t'.sell_value * cm.stamp_tax_rate := by
        apply mul_nonneg _ hst
        rw [← hsv]; exact hsv0
      have h3 : (0:ℚ) ≤ t'.trade_value * (cm.slippage_bps / 10000) := by
        apply mul_nonneg (le_of_lt (lt_of_not_le h')) (by positivity)
      by_cases h : t.trade_value ≤ 0
      · rw [if_pos h]; linarith
      · rw [if_neg h]
        have hmax : max (t.trade_value * cm.commission_rate) cm.min_commission ≤
            max (t'.trade_value * cm.commission_rate) cm.min_commission :=
          max_le_max (mul_le_mul_of_nonneg_right htv hcr) le_rfl
        have hslip : t.trade_value * (cm.slippage_bps / 10000) ≤
            t'.trade_value * (cm.slippage_bps / 10000) :=
          mul_le_mul_of_nonneg_right htv (by positivity)
        rw [hsv]
        linarith
  refine ⟨rfl, hsum, ?_⟩
  intro ts ts' hf
  rw [hsum, hsum]
  induction hf with
  | nil => exact le_rfl
  | cons h _ ih =>
    simp only [List.map_cons, List.sum_cons]
    exact add_le_add (hone _ _ h.1 h.2.1 h.2.2) ih

/-- Witness for C8 at a concrete cost model and trade lists. -/
theorem C8_cost_model_witness :
    CostModel.estimate_for_rebalance ⟨3/10000, 5, 1/1000, 1⟩ [] = 0 ∧
    CostModel.estimate_for_rebalance ⟨3/10000, 5, 1/1000, 1⟩ [⟨"A", 100, 50⟩] ≤
      CostModel.estimate_for_rebalance ⟨3/10000, 5, 1/1000, 1⟩ [⟨"A", 200, 50⟩] := by
  have h := C8_cost_model ⟨3/10000, 5, 1/1000, 1⟩
    (by norm_num) (by norm_num) (by norm_num) (by norm_num)
  exact ⟨h.1, h.2.2 [⟨"A", 100, 50⟩] [⟨"A", 200, 50⟩]
    (List.Forall₂.cons ⟨rfl, by norm_num, by norm_num⟩ List.Forall₂.nil)⟩

/-! ### C1: no pending rebalance date is reported as an error -/

/-- A volatility function for concrete runs (its value is irrelevant: the
concrete price histories below are too short to reach it). -/
def stdZero : List ℚ → ℚ := fun _ => 0

/-- Two trading days: day 8 (a Friday) and day 11 (the following Monday);
the weekly flag marks every date after the first, so day 11 is the only
rebalance date. -/
def ptTwoDays : PriceTable := ⟨[8, 11], fun _ _ => some 1⟩

/-- An account already advanced to day 11 (the last rebalance date). -/
def acctUpToDate : PaperAccount :=
  { as_of := some 11, cash := 0, positions := [], equity_peak := 1,
    gate_state := RiskState.NORMAL, gate_cooldown_left := 0, history := [] }

/-- C1 counterexample: when every weekly rebalance date is at or before the
account's `as_of`, `run_paper_once` raises (`RuntimeError`, here
`Except.error`) — the "nothing to do" outcome IS an error to the caller
(src/app/paper.py line 110; `cli.py` re-raises it), contradicting the
claim.  The persisted state is indeed unchanged: the account is not saved
on this path. -/
theorem C1_counterexample :
    run_paper_once stdZero ptTwoDays ["A"] "B" (some acctUpToDate) 100 (2/100)
      20 8 (1/100) ⟨1/10, 2/10, 4⟩ ⟨1, 1/2⟩ ⟨3/10000, 5, 0, 1⟩
      = Except.error msgUpToDate := rfl

/-- C1 (amended): when weekly rebalance dates exist but none lies strictly
after the stored account's `as_of`, `run_paper_once` reports the
no-pending-work outcome as an error to the caller (a `RuntimeError` whose
message says the account is already up to date), and the persisted account
state is left unchanged (the error path never reaches the save). -/
theorem C1_no_pending_work_is_error (std : List ℚ → ℚ) (pt : PriceTable)
    (equity_etfs : List Sym) (defensive_etf : Sym)
    (stored : Option PaperAccount) (initial_capital no_trade_band : ℚ)
    (momentum_lookback_days vol_lookback_weeks : Nat) (vol_floor : ℚ)
    (gcfg : RiskGateCfg) (alloc : AllocationCfg) (cm : CostModel)
    (a : PaperAccount) (last : Date)
    (hs : stored = some a) (hao : a.as_of = some last)
    (hne : rebalanceDatesOf pt.dates ≠ [])
    (hemp : (rebalanceDatesOf pt.dates).filter (fun d => decide (last < d)) = []) :
    run_paper_once std pt equity_etfs defensive_etf stored initial_capital
      no_trade_band momentum_lookback_days vol_lookback_weeks vol_floor
      gcfg alloc cm = Except.error msgUpToDate := by
  subst hs
  have h1 : (rebalanceDatesOf pt.dates).isEmpty = false := by
    cases h : rebalanceDatesOf pt.dates with
    | nil => exact absurd h hne
    | cons x xs => rfl
  unfold run_paper_once
  simp only [h1, Bool.false_eq_true, if_false, hao, hemp]

/-- Witness instantiating the amended C1 theorem at a concrete account. -/
theorem C1_no_pending_work_is_error_witness :
    run_paper_once stdZero ptTwoDays ["A", "C"] "B" (some acctUpToDate) 100 (2/100)
      20 8 (1/100) ⟨1/10, 2/10, 4⟩ ⟨1, 1/2⟩ ⟨3/10000, 5, 0, 1⟩
      = Except.error msgUpToDate :=
  C1_no_pending_work_is_error stdZero ptTwoDays ["A", "C"] "B"
    (some acctUpToDate) 100 (2/100) 20 8 (1/100) ⟨1/10, 2/10, 4⟩ ⟨1, 1/2⟩
    ⟨3/10000, 5, 0, 1⟩ acctUpToDate 11 rfl rfl (by decide) (by decide)

/-! ### C10: the first flag is false, so signal-date lookups stay in range -/

theorem zip_get?_eq {α β : Type} {l₁ : List α} {l₂ : List β} {i : Nat}
    {a : α} {b : β} (h : (l₁.zip l₂).get? i = some (a, b)) :
    l₁.get? i = some a ∧ l₂.get? i = some b := by
  have := (List.get?_zip_eq_some l₁ l₂ (a, b) i).mp h
  exact this

theorem nodup_indexOf_eq {l : List Date} (hn : l.Nodup) {i : Nat} {a : Date}
    (h : l.get? i = some a) : l.indexOf a = i := by
  induction l generalizing i with
  | nil => simp at h
  | cons x xs ih =>
    cases i with
    | zero =>
      simp only [List.get?_cons_zero, Option.some_inj] at h
      subst h
      exact List.indexOf_cons_self x xs
    | succ i =>
      simp only [List.get?_cons_succ] at h
      have hmem : a ∈ xs := List.get?_mem h
      have hne : x ≠ a := by
        rintro rfl
        exact (List.nodup_cons.mp hn).1 hmem
      rw [List.indexOf_cons_ne xs hne, ih (List.nodup_cons.mp hn).2 h]

theorem mem_rebalanceDatesOf {idx : List Date} {td : Date}
    (h : td ∈ rebalanceDatesOf idx) :
    ∃ i : Nat, idx.get? i = some td ∧
      (first_day_after_week_end idx).get? i = some true := by
  unfold rebalanceDatesOf at h
  rcases List.mem_filterMap.mp h with ⟨p, hp, hpe⟩
  rcases p with ⟨d, b⟩
  cases b with
  | false => simp at hpe
  | true =>
    simp only [if_pos, Option.some_inj] at hpe
    subst hpe
    rcases List.mem_iff_get?.mp hp with ⟨i, hi⟩
    rcases zip_get?_eq hi with ⟨h1, h2⟩
    exact ⟨i, h1, h2⟩

theorem flag_true_index_pos {idx : List Date} {i : Nat}
    (h : (first_day_after_week_end idx).get? i = some true) : 1 ≤ i := by
  cases idx with
  | nil =>
    rw [show first_day_after_week_end ([] : List Date) = [] from rfl] at h
    simp at h
  | cons d ds =>
    cases i with
    | zero =>
      rw [show (first_day_after_week_end (d :: ds)).get? 0 = some false from rfl] at h
      simp at h
    | succ i => exact Nat.succ_le_succ (Nat.zero_le i)

/-- C10: for every non-empty trading-date index the weekly flag of the
first date is `False`; every set flag sits at position ≥ 1; hence the
backtest trigger's `idx[i - 1]` resolves to the genuine previous trading
day (a non-negative in-range position), and the paper driver's
`idx[get_loc(trade_dt) - 1]` lookup for a rebalance date likewise hits the
in-range position `get_loc - 1 ≥ 0` with no negative wrap-around. -/
theorem C10_signal_lookups_in_range :
    (∀ (d : Date) (ds : List Date),
      (first_day_after_week_end (d :: ds)).get? 0 = some false) ∧
    (∀ (idx : List Date) (i : Nat),
      (first_day_after_week_end idx).get? i = some true → 1 ≤ i) ∧
    (∀ (idx : List Date) (now sig : Date),
      RunWeeklyAfterFriday idx now = some sig →
        1 ≤ idx.indexOf now ∧ idx.get? (idx.indexOf now - 1) = some sig) ∧
    (∀ idx : List Date, idx.Nodup → ∀ td ∈ rebalanceDatesOf idx,
      1 ≤ idx.indexOf td ∧
      pyGet idx ((idx.indexOf td : Int) - 1) = idx.get? (idx.indexOf td - 1) ∧
      (idx.get? (idx.indexOf td - 1)).isSome) := by
  refine ⟨fun d ds => rfl, fun idx i h => flag_true_index_pos h, ?_, ?_⟩
  · intro idx now sig h
    unfold RunWeeklyAfterFriday at h
    dsimp only at h
    split_ifs at h with h1 h2
    have hpos : 1 ≤ idx.indexOf now := by omega
    refine ⟨hpos, ?_⟩
    unfold pyGet at h
    rw [if_pos (by omega : (0:Int) ≤ (idx.indexOf now : Int) - 1)] at h
    have hcast : ((idx.indexOf now : Int) - 1).toNat = idx.indexOf now - 1 := by omega
    rwa [hcast] at h
  · intro idx hn td htd
    rcases mem_rebalanceDatesOf htd with ⟨i, hget, hflag⟩
    have hi1 : 1 ≤ i := flag_true_index_pos hflag
    have hidx : idx.indexOf td = i := nodup_indexOf_eq hn hget
    have hlt : i < idx.length := by
      by_contra hge
      rw [List.get?_eq_none.mpr (by omega)] at hget
      exact Option.noConfusion hget
    refine ⟨by omega, ?_, ?_⟩
    · unfold pyGet
      rw [if_pos (by omega : (0:Int) ≤ (idx.indexOf td : Int) - 1)]
      congr 1
      omega
    · rw [hidx]
      have : i - 1 < idx.length := by omega
      rw [List.get?_eq_get this]
      simp

/-- Witness for C10 at a concrete index: days 8 (Friday), 11 (Monday),
12 (Tuesday); day 11 is the flagged rebalance date at position 1. -/
theorem C10_signal_lookups_in_range_witness :
    (first_day_after_week_end ([8, 11, 12] : List Date)).get? 0 = some false ∧
    1 ≤ List.indexOf (11 : Date) [8, 11, 12] ∧
    pyGet ([8, 11, 12] : List Date) ((List.indexOf (11 : Date) [8, 11, 12] : Int) - 1)
      = List.get? ([8, 11, 12] : List Date) (List.indexOf (11 : Date) [8, 11, 12] - 1) ∧
    (List.get? ([8, 11, 12] : List Date) (List.indexOf (11 : Date) [8, 11, 12] - 1)).isSome := by
  refine ⟨C10_signal_lookups_in_range.1 8 [11, 12], ?_⟩
  exact C10_signal_lookups_in_range.2.2.2 [8, 11, 12] (by decide) 11 (by decide)

/-! ### The sort model: permutation and descending order

The ordering facts below hold of any correct descending sort and so are
independent of the numpy kernel's (unstable) tie behavior. -/

theorem insertDesc_perm (x : Sym × WithBot ℚ) (m : List (Sym × WithBot ℚ)) :
    List.Perm (insertDesc x m) (x :: m) := by
  induction m with
  | nil => rfl
  | cons y ys ih =>
    by_cases h : x.2 < y.2
    · simp only [insertDesc, if_pos h]
      exact (ih.cons y).trans (List.Perm.swap x y ys)
    · simp [insertDesc, if_neg h]

theorem sortDesc_perm (l : List (Sym × WithBot ℚ)) : List.Perm (sortDesc l) l := by
  induction l with
  | nil => rfl
  | cons x xs ih => exact (insertDesc_perm x (sortDesc xs)).trans (ih.cons x)

theorem insertDesc_pairwise (x : Sym × WithBot ℚ) (m : List (Sym × WithBot ℚ))
    (h : m.Pairwise (fun a b => b.2 ≤ a.2)) :
    (insertDesc x m).Pairwise (fun a b => b.2 ≤ a.2) := by
  induction m with
  | nil => simp [insertDesc]
  | cons y ys ih =>
    rcases List.pairwise_cons.mp h with ⟨hy, hys⟩
    by_cases hlt : x.2 < y.2
    · simp only [insertDesc, if_pos hlt]
      refine List.pairwise_cons.mpr ⟨?_, ih hys⟩
      intro z hz
      have hz' : z ∈ x :: ys := (insertDesc_perm x ys).mem_iff.mp hz
      rcases List.mem_cons.mp hz' with rfl | hz'
      · exact le_of_lt hlt
      · exact hy z hz'
    · simp only [insertDesc, if_neg hlt]
      refine List.pairwise_cons.mpr ⟨?_, h⟩
      intro z hz
      rcases List.mem_cons.mp hz with hz | hz
      · subst hz; exact not_lt.mp hlt
      · exact le_trans (hy z hz) (not_lt.mp hlt)

theorem sortDesc_pairwise (l : List (Sym × WithBot ℚ)) :
    (sortDesc l).Pairwise (fun a b => b.2 ≤ a.2) := by
  induction l with
  | nil => exact List.Pairwise.nil
  | cons x xs ih => exact insertDesc_pairwise x (sortDesc xs) ih

/-! ### C9: the equity peak is monotonically non-decreasing -/

theorem backfill_foldl_peak_le (pt : PriceTable) (existing : List Date)
    (l : List Date) :
    ∀ acc : PaperAccount,
      acc.equity_peak ≤
        (l.foldl
          (fun acc d =>
            if existing.contains d then acc
            else
              { acc with
                history := acc.history ++
                  [(d, account_value acc.positions acc.cash (pt.price d))],
                equity_peak := max acc.equity_peak
                  (account_value acc.positions acc.cash (pt.price d)) })
          acc).equity_peak := by
  induction l with
  | nil => intro acc; exact le_rfl
  | cons d l ih =>
    intro acc
    simp only [List.foldl_cons]
    by_cases h : existing.contains d
    · rw [if_pos h]; exact ih acc
    · rw [if_neg h]
      exact le_trans (le_max_left _ _) (ih _)

theorem backfill_peak_le (pt : PriceTable) (sd : Date) (a : PaperAccount) :
    a.equity_peak ≤ (backfillHistory pt sd a).equity_peak := by
  unfold backfillHistory
  cases a.as_of with
  | none => exact le_rfl
  | some last => exact backfill_foldl_peak_le pt _ _ a

theorem paperSettle_peak_mono (std : List ℚ → ℚ) (pt : PriceTable)
    (symbols equity_etfs : List Sym) (e0 defensive_etf : Sym)
    (a : PaperAccount) (no_trade_band : ℚ) (nDays mWeeks : Nat) (vf : ℚ)
    (gcfg : RiskGateCfg) (alloc : AllocationCfg) (cm : CostModel)
    (td sd : Date) :
    a.equity_peak ≤
      (paperSettle std pt symbols equity_etfs e0 defensive_etf a no_trade_band
        nDays mWeeks vf gcfg alloc cm td sd).account.equity_peak := by
  have h1 := backfill_peak_le pt sd a
  simp only [paperSettle]
  exact le_trans h1 (le_trans (le_max_left _ _) (le_max_left _ _))

/-- C9: a successful paper-trading advance never decreases the persisted
`equity_peak` — every update inside the driver (history backfill,
signal-date valuation, post-trade valuation) takes a `max` with the prior
peak, so across successive invocations on the same account the peak is
monotone. -/
theorem C9_equity_peak_monotone (std : List ℚ → ℚ) (pt : PriceTable)
    (equity_etfs : List Sym) (defensive_etf : Sym)
    (stored : Option PaperAccount) (initial_capital no_trade_band : ℚ)
    (nDays mWeeks : Nat) (vf : ℚ) (gcfg : RiskGateCfg) (alloc : AllocationCfg)
    (cm : CostModel) (a : PaperAccount) (r : PaperResult)
    (hs : stored = some a)
    (hrun : run_paper_once std pt equity_etfs defensive_etf stored
      initial_capital no_trade_band nDays mWeeks vf gcfg alloc cm
      = Except.ok r) :
    a.equity_peak ≤ r.account.equity_peak := by
  subst hs
  simp only [run_paper_once] at hrun
  split at hrun
  · exact Except.noConfusion hrun
  · split at hrun
    · exact Except.noConfusion hrun
    · split at hrun
      · exact Except.noConfusion hrun
      · split at hrun
        · exact Except.noConfusion hrun
        · rw [Except.ok.injEq] at hrun
          rw [← hrun]
          exact paperSettle_peak_mono _ _ _ _ _ _ _ _ _ _ _ _ _ _ _ _

/-- A fresh stored account with 100 of cash and no positions. -/
def acctFresh100 : PaperAccount :=
  { as_of := none, cash := 100, positions := [], equity_peak := 100,
    gate_state := RiskState.NORMAL, gate_cooldown_left := 0, history := [] }

/-- Concrete evaluation of a full successful paper advance: a fresh account
with 100 in cash buys 50 shares of "A" at price 1 for a 5 commission (the
minimum), leaving 45 in cash; the peak stays 100.  Rational arithmetic
does not reduce definitionally (its normalization runs `Nat.gcd`, compiled
by well-founded recursion), so the run is evaluated stage by stage with
`norm_num`. -/
theorem run_fresh100_eval :
    run_paper_once stdZero ptTwoDays ["A"] "B" (some acctFresh100) 100
      (1/50) 20 8 (1/100) ⟨1/10, 1/5, 4⟩ ⟨1/2, 1/2⟩ ⟨3/10000, 5, 0, 0⟩
    = Except.ok
      (PaperResult.mk
        { as_of := some 11, cash := 45, positions := [("A", 50)],
          equity_peak := 100, gate_state := RiskState.NORMAL,
          gate_cooldown_left := 0, history := [(11, 95)] }
        [⟨"A", TradeAction.BUY, 0, 50, 50, 1, 5⟩] 11 8 100 RiskState.NORMAL
        false) := by
  have hb : backfillHistory ptTwoDays 8 ⟨none, 100, [], 100, RiskState.NORMAL, 0, []⟩
      = ⟨none, 100, [], 100, RiskState.NORMAL, 0, []⟩ := rfl
  have hg : RiskGate.on_rebalance ⟨1/10, 1/5, 4, RiskState.NORMAL, 0⟩ 0
      = (⟨1/10, 1/5, 4, RiskState.NORMAL, 0⟩, false) := by
    norm_num [RiskGate.on_rebalance, RiskGate.next_state]
  have hsc : compute_score stdZero ptTwoDays ["A"] 8 20 8 (1/100)
      = [("A", (⊥ : WithBot ℚ))] := rfl
  have hpk : pick_best_equity [("A", (⊥ : WithBot ℚ))] "A" = "A" := rfl
  have hcw : currentWeights ["A", "B"] [] (ptTwoDays.price 11) 100
      = [("A", 0), ("B", 0)] := rfl
  have hts : targetSharesOf [("A", (1/2 : ℚ))] [] (ptTwoDays.price 11) 100
      = [("A", 50)] := by
    norm_num [targetSharesOf, ptTwoDays, dkeys]
  have hsell : sellPhase ⟨3/10000, 5, 0, 0⟩ (ptTwoDays.price 11) [] [("A", 50)]
      ⟨100, [], [], []⟩ = ⟨100, [], [], []⟩ := by
    norm_num [sellPhase, dgetD, dget]
  have hbuy : buyPhase ⟨3/10000, 5, 0, 0⟩ "B" (ptTwoDays.price 11) [] [("A", 50)]
      ⟨100, [], [], []⟩
      = ⟨45, [("A", 50)], [("A", 5)], [⟨"A", TradeAction.BUY, 0, 50, 50, 1, 5⟩]⟩ := by
    norm_num [buyPhase, tryBuy, estCostFor, CostModel.estimate_for_rebalance,
      dgetD, dget, dset, dkeys, ptTwoDays, List.contains, List.elem,
      show (("A":String) == "A") = true from by decide,
      show (("B":String) == "A") = false from by decide,
      show (("A":String) == "B") = false from by decide]
  norm_num [run_paper_once, paperSettle,
    show rebalanceDatesOf [8, 11] = [11] from by decide,
    wfriPeriod, acctFresh100, stdZero, dedupFirst, pyGet,
    show ptTwoDays.dates = [8, 11] from rfl,
    show ptTwoDays.price 11 "A" = some 1 from rfl,
    show ptTwoDays.price 11 "B" = some 1 from rfl,
    show ptTwoDays.price 8 "A" = some 1 from rfl,
    show ptTwoDays.price 8 "B" = some 1 from rfl,
    account_value, target_weights, dget, dgetD, dkeys, cleanupPositions,
    List.indexOf, List.findIdx, List.findIdx.go, List.filterMap_cons, List.filterMap_nil,
    hb, hg, hsc, hpk, hcw, hts, hsell, hbuy,
    show Int.fdiv 9 7 = 1 from by decide, show Int.fdiv 6 7 = 0 from by decide,
    abs, max_def, max_self, show ¬("A" = "B") from by decide, show ¬("B" = "A") from by decide,
    show (("A":String) == "A") = true from by decide,
    show (("B":String) == "A") = false from by decide,
    show (("A":String) == "B") = false from by decide,
    show (("B":String) == "B") = true from by decide,
    show (("B":String) != "A") = true from by decide,
    show (((1:Int) != 0)) = true from by decide,
    show (((50:Int) != 0)) = true from by decide,
    show (((8:Int) == 11)) = false from by decide,
    show (((11:Int) == 11)) = true from by decide,
    show ¬(RiskState.NORMAL = RiskState.CIRCUIT_COOLDOWN) from by decide,
    show ¬(RiskState.NORMAL = RiskState.DE_RISK) from by decide]

/-- Witness for C9: a concrete successful advance (buy 50 shares of "A" at
price 1, cost 5) keeps the peak at 100. -/
theorem C9_equity_peak_monotone_witness :
    acctFresh100.equity_peak ≤
      (PaperResult.mk
        { as_of := some 11, cash := 45, positions := [("A", 50)],
          equity_peak := 100, gate_state := RiskState.NORMAL,
          gate_cooldown_left := 0, history := [(11, 95)] }
        [⟨"A", TradeAction.BUY, 0, 50, 50, 1, 5⟩] 11 8 100 RiskState.NORMAL
        false).account.equity_peak :=
  C9_equity_peak_monotone stdZero ptTwoDays ["A"] "B" (some acctFresh100) 100
    (1/50) 20 8 (1/100) ⟨1/10, 1/5, 4⟩ ⟨1/2, 1/2⟩ ⟨3/10000, 5, 0, 0⟩
    acctFresh100 _ rfl run_fresh100_eval

/-! ### C4: post-advance account invariants -/

theorem dgetD_rat_nonneg {m : List (Sym × ℚ)} {k : Sym}
    (h : ∀ p ∈ m, 0 ≤ p.2) : 0 ≤ dgetD m k 0 := by
  unfold dgetD dget
  cases hf : m.find? (fun p => p.1 == k) with
  | none => simp
  | some p =>
    simp only [Option.map_some', Option.getD_some]
    exact h p (List.mem_of_find?_eq_some hf)

theorem dgetD_int_nonneg {m : List (Sym × Int)} {k : Sym} {d : Int}
    (h : ∀ p ∈ m, 0 ≤ p.2) (hd : 0 ≤ d) : 0 ≤ dgetD m k d := by
  unfold dgetD dget
  cases hf : m.find? (fun p => p.1 == k) with
  | none => simpa using hd
  | some p =>
    simp only [Option.map_some', Option.getD_some]
    exact h p (List.mem_of_find?_eq_some hf)

theorem dset_values {α : Type} {m : List (Sym × α)} {k : Sym} {v : α}
    {P : α → Prop} (h : ∀ p ∈ m, P p.2) (hv : P v) :
    ∀ p ∈ dset m k v, P p.2 := by
  intro p hp
  unfold dset at hp
  split at hp
  · rcases List.mem_map.mp hp with ⟨q, hq, he⟩
    by_cases hqk : (q.1 == k) = true
    · rw [if_pos hqk] at he
      subst he
      exact hv
    · rw [if_neg hqk] at he
      subst he
      exact h q hq
  · rcases List.mem_append.mp hp with hq | hq
    · exact h p hq
    · simp only [List.mem_singleton] at hq
      subst hq
      exact hv

theorem account_value_nonneg {positions : List (Sym × Int)} {cash : ℚ}
    {row : Sym → Option ℚ} (hc : 0 ≤ cash) (hp : ∀ p ∈ positions, 0 ≤ p.2)
    (hr : ∀ s q, row s = some q → 0 ≤ q) :
    0 ≤ account_value positions cash row := by
  unfold account_value
  induction positions generalizing cash with
  | nil => exact hc
  | cons p rest ih =>
    simp only [List.foldl_cons]
    have h2 : ∀ q ∈ rest, 0 ≤ q.2 := fun q hq => hp q (List.mem_cons_of_mem p hq)
    cases hrow : row p.1 with
    | none => exact ih hc h2
    | some q =>
      refine ih ?_ h2
      dsimp only
      have h3 := hr p.1 q hrow
      have hpp := hp p (List.mem_cons_self p rest)
      have h4 : 0 ≤ (p.2 : ℚ) * q := mul_nonneg (by exact_mod_cast hpp) h3
      linarith

theorem account_value_eq_sum {positions : List (Sym × Int)} {cash : ℚ}
    {row : Sym → Option ℚ} (h : ∀ p ∈ positions, (row p.1).isSome) :
    account_value positions cash row
      = cash + (positions.map (fun p => (p.2 : ℚ) * (row p.1).getD 0)).sum := by
  unfold account_value
  induction positions generalizing cash with
  | nil => simp
  | cons p rest ih =>
    have hs := h p (List.mem_cons_self p rest)
    rcases Option.isSome_iff_exists.mp hs with ⟨q, hq⟩
    have h2 : ∀ r ∈ rest, (row r.1).isSome := fun r hr => h r (List.mem_cons_of_mem p hr)
    simp only [List.foldl_cons, hq, List.map_cons, List.sum_cons, Option.getD_some]
    rw [ih h2]
    ring

theorem target_weights_value_nonneg (st : RiskState) (w d : Sym) (nw dw : ℚ)
    (hnw : 0 ≤ nw) (hdw0 : 0 ≤ dw) (hdw1 : dw ≤ 1) :
    ∀ p ∈ target_weights st w d nw dw, 0 ≤ p.2 := by
  unfold target_weights
  split_ifs
  · intro p hp
    simp only [List.mem_singleton] at hp
    subst hp
    norm_num
  · exact dset_values (dset_values (by simp) hdw0) (by linarith)
  · intro p hp
    simp only [List.mem_singleton] at hp
    subst hp
    exact hnw

theorem getD_price_nonneg {px : Sym → Option ℚ}
    (hpx : ∀ s q, px s = some q → 0 ≤ q) (s : Sym) : 0 ≤ (px s).getD 0 := by
  cases h : px s with
  | none => simp
  | some q => simpa using hpx s q h

theorem currentWeights_nonneg {symbols : List Sym} {pre : List (Sym × Int)}
    {px : Sym → Option ℚ} {pv : ℚ} (hpx : ∀ s q, px s = some q → 0 ≤ q) :
    ∀ p ∈ currentWeights symbols pre px pv, 0 ≤ p.2 := by
  intro p hp
  unfold currentWeights at hp
  rcases List.mem_map.mp hp with ⟨s, _, he⟩
  by_cases hs : dgetD pre s 0 ≤ 0
  · rw [if_pos hs] at he
    subst he
    exact le_rfl
  · rw [if_neg hs] at he
    subst he
    dsimp only
    split_ifs with hpv
    · refine div_nonneg (mul_nonneg ?_ (getD_price_nonneg hpx s)) (le_of_lt hpv)
      have : (0 : Int) < dgetD pre s 0 := lt_of_not_le hs
      exact_mod_cast le_of_lt this
    · exact le_rfl

theorem band_map_nonneg {tw0 cwl : List (Sym × ℚ)} {band : ℚ}
    (h0 : ∀ p ∈ tw0, 0 ≤ p.2) (hcw : ∀ p ∈ cwl, 0 ≤ p.2) :
    ∀ p ∈ tw0.map (fun p =>
        if |p.2 - dgetD cwl p.1 0| < band then (p.1, dgetD cwl p.1 0) else p),
      0 ≤ p.2 := by
  intro p hp
  rcases List.mem_map.mp hp with ⟨q, hq, he⟩
  by_cases hband : |q.2 - dgetD cwl q.1 0| < band
  · rw [if_pos hband] at he
    subst he
    exact dgetD_rat_nonneg hcw
  · rw [if_neg hband] at he
    subst he
    exact h0 q hq

theorem targetSharesOf_nonneg {tw : List (Sym × ℚ)} {pre : List (Sym × Int)}
    {px : Sym → Option ℚ} {pv : ℚ} (hpv : 0 ≤ pv)
    (htw : ∀ p ∈ tw, 0 ≤ p.2) :
    ∀ p ∈ targetSharesOf tw pre px pv, 0 ≤ p.2 := by
  unfold targetSharesOf
  have hbase : ∀ p ∈ tw.map (fun p =>
      (p.1, if (px p.1).getD 0 > 0 then ⌊pv * p.2 / (px p.1).getD 0⌋ else 0)),
      0 ≤ p.2 := by
    intro p hp
    rcases List.mem_map.mp hp with ⟨q, hq, he⟩
    subst he
    dsimp only
    split_ifs with hpx'
    · exact Int.floor_nonneg.mpr (div_nonneg (mul_nonneg hpv (htw q hq)) (le_of_lt hpx'))
    · exact le_rfl
  generalize tw.map _ = base at hbase ⊢
  induction dkeys pre generalizing base with
  | nil => exact hbase
  | cons s rest ih =>
    simp only [List.foldl_cons]
    by_cases hc : (dkeys base).contains s
    · rw [if_pos hc]
      exact ih _ hbase
    · rw [if_neg hc]
      refine ih _ ?_
      intro p hp
      rcases List.mem_append.mp hp with hq | hq
      · exact hbase p hq
      · simp only [List.mem_singleton] at hq
        subst hq
        exact le_rfl

theorem sellPhase_positions {cm : CostModel} {px : Sym → Option ℚ}
    {pre : List (Sym × Int)} {ts : List (Sym × Int)} {st : ExecState}
    (hst : ∀ p ∈ st.positions, 0 ≤ p.2) (hts : ∀ p ∈ ts, 0 ≤ p.2) :
    ∀ p ∈ (sellPhase cm px pre ts st).positions, 0 ≤ p.2 := by
  unfold sellPhase
  induction ts generalizing st with
  | nil => exact hst
  | cons t rest ih =>
    simp only [List.foldl_cons]
    have hts' : ∀ p ∈ rest, 0 ≤ p.2 := fun p hp => hts p (List.mem_cons_of_mem t hp)
    by_cases hd : t.2 - dgetD st.positions t.1 (dgetD pre t.1 0) ≥ 0
    · rw [if_pos hd]
      exact ih hst hts'
    · rw [if_neg hd]
      cases hpx : px t.1 with
      | none => exact ih hst hts'
      | some pxv =>
        dsimp only
        by_cases hp0 : pxv ≤ 0
        · rw [if_pos hp0]
          exact ih hst hts'
        · rw [if_neg hp0]
          refine ih ?_ hts'
          dsimp only
          have hw : dgetD st.positions t.1 (dgetD pre t.1 0) -
              -(t.2 - dgetD st.positions t.1 (dgetD pre t.1 0)) = t.2 := by ring
          rw [hw]
          exact dset_values hst (hts t (List.mem_cons_self t rest))

theorem buyPhase_positions {cm : CostModel} {defensive : Sym}
    {px : Sym → Option ℚ} {pre : List (Sym × Int)} {ts : List (Sym × Int)}
    {st : ExecState} (hst : ∀ p ∈ st.positions, 0 ≤ p.2)
    (hpre : ∀ p ∈ pre, 0 ≤ p.2) :
    ∀ p ∈ (buyPhase cm defensive px pre ts st).positions, 0 ≤ p.2 := by
  unfold buyPhase
  generalize (if (dkeys ts).contains defensive then
      (dkeys ts).erase defensive ++ [defensive] else dkeys ts) = syms
  induction syms generalizing st with
  | nil => exact hst
  | cons s rest ih =>
    simp only [List.foldl_cons]
    by_cases hd : dgetD ts s 0 - dgetD st.positions s (dgetD pre s 0) ≤ 0
    · rw [if_pos hd]
      exact ih hst
    · rw [if_neg hd]
      cases hpx : px s with
      | none => exact ih hst
      | some pxv =>
        dsimp only
        by_cases hp0 : pxv ≤ 0
        · rw [if_pos hp0]
          exact ih hst
        · rw [if_neg hp0]
          cases htb : tryBuy cm s st.cash pxv
              (dgetD ts s 0 - dgetD st.positions s (dgetD pre s 0)).toNat with
          | none => exact ih hst
          | some bc =>
            refine ih ?_
            dsimp only
            refine dset_values hst ?_
            have h1 : (0:Int) ≤ dgetD st.positions s (dgetD pre s 0) :=
              dgetD_int_nonneg hst (dgetD_int_nonneg hpre le_rfl)
            have h2 : (0:Int) ≤ (bc.1 : Int) := Int.ofNat_nonneg bc.1
            linarith

theorem cleanupPositions_pos {m : List (Sym × Int)}
    (h : ∀ p ∈ m, 0 ≤ p.2) : ∀ p ∈ cleanupPositions m, 0 < p.2 := by
  intro p hp
  unfold cleanupPositions at hp
  rcases List.mem_filter.mp hp with ⟨hm, hne⟩
  have hne' : p.2 ≠ 0 := by simpa using hne
  have := h p hm
  omega

theorem paperSettle_positions_pos (std : List ℚ → ℚ) (pt : PriceTable)
    (symbols equity_etfs : List Sym) (e0 defensive_etf : Sym)
    (a : PaperAccount) (band : ℚ) (nDays mWeeks : Nat) (vf : ℚ)
    (gcfg : RiskGateCfg) (alloc : AllocationCfg) (cm : CostModel)
    (td sd : Date)
    (hcash : 0 ≤ a.cash) (hpos : ∀ p ∈ a.positions, 0 ≤ p.2)
    (hpx : ∀ d s q, pt.price d s = some q → 0 ≤ q)
    (hnw : 0 ≤ alloc.normal_equity_weight)
    (hdw0 : 0 ≤ alloc.derisk_equity_weight)
    (hdw1 : alloc.derisk_equity_weight ≤ 1) :
    ∀ p ∈ (paperSettle std pt symbols equity_etfs e0 defensive_etf a band
      nDays mWeeks vf gcfg alloc cm td sd).account.positions, 0 < p.2 := by
  simp only [paperSettle]
  refine cleanupPositions_pos ?_
  refine buyPhase_positions ?_ hpos
  refine sellPhase_positions hpos ?_
  refine targetSharesOf_nonneg ?_ ?_
  · exact account_value_nonneg hcash hpos (fun s q h => hpx td s q h)
  · refine band_map_nonneg ?_ ?_
    · exact target_weights_value_nonneg _ _ _ _ _ hnw hdw0 hdw1
    · exact currentWeights_nonneg (fun s q h => hpx td s q h)

/-- C4 (amended): after every successful paper-trading advance from a
well-formed account (nonnegative cash, nonnegative integer positions,
nonnegative prices, configured weights with `normal ≥ 0` and
`derisk ∈ [0,1]`), every persisted position has a strictly positive share
count (no negatives, zero entries removed), and the pre-trade total value
used for sizing equals the stored cash plus the sum over held positions of
shares times the trade-date price.  The claim's `cash ≥ 0` part is false
(see the counterexample): sell costs can exceed sale proceeds. -/
theorem C4_account_invariants (std : List ℚ → ℚ) (pt : PriceTable)
    (equity_etfs : List Sym) (defensive_etf : Sym)
    (stored : Option PaperAccount) (initial_capital no_trade_band : ℚ)
    (nDays mWeeks : Nat) (vf : ℚ) (gcfg : RiskGateCfg) (alloc : AllocationCfg)
    (cm : CostModel) (a : PaperAccount) (r : PaperResult)
    (hs : stored = some a)
    (hcash : 0 ≤ a.cash) (hpos : ∀ p ∈ a.positions, 0 ≤ p.2)
    (hpx : ∀ d s q, pt.price d s = some q → 0 ≤ q)
    (hnw : 0 ≤ alloc.normal_equity_weight)
    (hdw0 : 0 ≤ alloc.derisk_equity_weight)
    (hdw1 : alloc.derisk_equity_weight ≤ 1)
    (hfull : ∀ d : Date, ∀ p ∈ a.positions, (pt.price d p.1).isSome)
    (hrun : run_paper_once std pt equity_etfs defensive_etf stored
      initial_capital no_trade_band nDays mWeeks vf gcfg alloc cm
      = Except.ok r) :
    (∀ p ∈ r.account.positions, 0 < p.2) ∧
    r.pre_value = a.cash + (a.positions.map
      (fun p => (p.2 : ℚ) * ((pt.price r.trade_dt p.1).getD 0))).sum := by
  subst hs
  simp only [run_paper_once] at hrun
  split at hrun
  · exact Except.noConfusion hrun
  · split at hrun
    · exact Except.noConfusion hrun
    · split at hrun
      · exact Except.noConfusion hrun
      · split at hrun
        · exact Except.noConfusion hrun
        · rw [Except.ok.injEq] at hrun
          subst hrun
          constructor
          · exact paperSettle_positions_pos _ _ _ _ _ _ _ _ _ _ _ _ _ _ _ _
              hcash hpos hpx hnw hdw0 hdw1
          · simp only [paperSettle]
            exact account_value_eq_sum (hfull _)

/-- Witness for C4's amended theorem: the concrete successful advance of
`run_fresh100_eval` leaves only the strictly positive position
`("A", 50)`, and its sizing value 100 satisfies the valuation identity. -/
theorem C4_account_invariants_witness :
    (∀ p ∈ (PaperResult.mk
        { as_of := some 11, cash := 45, positions := [("A", 50)],
          equity_peak := 100, gate_state := RiskState.NORMAL,
          gate_cooldown_left := 0, history := [(11, 95)] }
        [⟨"A", TradeAction.BUY, 0, 50, 50, 1, 5⟩] 11 8 100 RiskState.NORMAL
        false).account.positions, 0 < p.2) ∧
    (PaperResult.mk
        { as_of := some 11, cash := 45, positions := [("A", 50)],
          equity_peak := 100, gate_state := RiskState.NORMAL,
          gate_cooldown_left := 0, history := [(11, 95)] }
        [⟨"A", TradeAction.BUY, 0, 50, 50, 1, 5⟩] 11 8 100 RiskState.NORMAL
        false).pre_value
      = acctFresh100.cash + (acctFresh100.positions.map
          (fun p => (p.2 : ℚ) * ((ptTwoDays.price (PaperResult.mk
            { as_of := some 11, cash := 45, positions := [("A", 50)],
              equity_peak := 100, gate_state := RiskState.NORMAL,
              gate_cooldown_left := 0, history := [(11, 95)] }
            [⟨"A", TradeAction.BUY, 0, 50, 50, 1, 5⟩] 11 8 100 RiskState.NORMAL
            false).trade_dt p.1).getD 0))).sum :=
  C4_account_invariants stdZero ptTwoDays ["A"] "B" (some acctFresh100) 100
    (1/50) 20 8 (1/100) ⟨1/10, 1/5, 4⟩ ⟨1/2, 1/2⟩ ⟨3/10000, 5, 0, 0⟩
    acctFresh100 _ rfl (by norm_num [acctFresh100])
    (by simp [acctFresh100])
    (by intro d s q h; simp only [ptTwoDays] at h;
        rw [show q = 1 from (Option.some_inj.mp h).symm]; norm_num)
    (by norm_num) (by norm_num) (by norm_num)
    (by simp [acctFresh100]) run_fresh100_eval

/-- An account holding one share of "A" with no cash. -/
def acctOneShare : PaperAccount :=
  { as_of := none, cash := 0, positions := [("A", 1)], equity_peak := 1,
    gate_state := RiskState.NORMAL, gate_cooldown_left := 0, history := [] }

/-- C4 counterexample: a well-formed account (cash 0, one share of "A" at
price 1, valid configuration with weights in [0,1]) sells its share for
proceeds 1 at a modeled cost of 5 (the minimum commission), and the
successful advance persists cash = -4 < 0 — `run_paper_once` leaves
negative cash, refuting the claim as stated. -/
theorem C4_counterexample :
    run_paper_once stdZero ptTwoDays ["A"] "B" (some acctOneShare) 100
      (1/50) 20 8 (1/100) ⟨1/10, 1/5, 4⟩ ⟨0, 1/2⟩ ⟨3/10000, 5, 0, 0⟩
    = Except.ok
      (PaperResult.mk
        { as_of := some 11, cash := -4, positions := [],
          equity_peak := 1, gate_state := RiskState.NORMAL,
          gate_cooldown_left := 0, history := [(11, -4)] }
        [⟨"A", TradeAction.SELL, 1, 0, -1, 1, 5⟩] 11 8 1 RiskState.NORMAL
        false)
    ∧ ¬ (0 ≤ (-4 : ℚ)) := by
  refine ⟨?_, by norm_num⟩
  have hb : backfillHistory ptTwoDays 8 ⟨none, 0, [("A", 1)], 1, RiskState.NORMAL, 0, []⟩
      = ⟨none, 0, [("A", 1)], 1, RiskState.NORMAL, 0, []⟩ := rfl
  have hg : RiskGate.on_rebalance ⟨1/10, 1/5, 4, RiskState.NORMAL, 0⟩ 0
      = (⟨1/10, 1/5, 4, RiskState.NORMAL, 0⟩, false) := by
    norm_num [RiskGate.on_rebalance, RiskGate.next_state]
  have hsc : compute_score stdZero ptTwoDays ["A"] 8 20 8 (1/100)
      = [("A", (⊥ : WithBot ℚ))] := rfl
  have hpk : pick_best_equity [("A", (⊥ : WithBot ℚ))] "A" = "A" := rfl
  have hcw : currentWeights ["A", "B"] [("A", 1)] (ptTwoDays.price 11) 1
      = [("A", 1), ("B", 0)] := by
    norm_num [currentWeights, dgetD, dget,
      show ptTwoDays.price 11 "A" = some 1 from rfl,
      show ptTwoDays.price 11 "B" = some 1 from rfl,
      show (("A":String) == "A") = true from by decide,
      show (("A":String) == "B") = false from by decide,
      show ¬("A" = "B") from by decide, show ¬("B" = "A") from by decide]
  have hts : targetSharesOf [("A", (0 : ℚ))] [("A", 1)] (ptTwoDays.price 11) 1
      = [("A", 0)] := by
    norm_num [targetSharesOf, dkeys, List.contains, List.elem, ptTwoDays,
      show (("A":String) == "A") = true from by decide]
  have hsell : sellPhase ⟨3/10000, 5, 0, 0⟩ (ptTwoDays.price 11) [("A", 1)] [("A", 0)]
      ⟨0, [("A", 1)], [], []⟩
      = ⟨-4, [("A", 0)], [("A", 5)], [⟨"A", TradeAction.SELL, 1, 0, -1, 1, 5⟩]⟩ := by
    norm_num [sellPhase, estCostFor, CostModel.estimate_for_rebalance,
      dgetD, dget, dset, max_def, ptTwoDays,
      show (("A":String) == "A") = true from by decide]
  have hbuy : buyPhase ⟨3/10000, 5, 0, 0⟩ "B" (ptTwoDays.price 11) [("A", 1)] [("A", 0)]
      ⟨-4, [("A", 0)], [("A", 5)], [⟨"A", TradeAction.SELL, 1, 0, -1, 1, 5⟩]⟩
      = ⟨-4, [("A", 0)], [("A", 5)], [⟨"A", TradeAction.SELL, 1, 0, -1, 1, 5⟩]⟩ := by
    norm_num [buyPhase, dgetD, dget, dkeys, List.contains, List.elem,
      show (("A":String) == "A") = true from by decide,
      show (("B":String) == "A") = false from by decide]
  norm_num [run_paper_once, paperSettle,
    show rebalanceDatesOf [8, 11] = [11] from by decide,
    wfriPeriod, acctOneShare, stdZero, dedupFirst, pyGet,
    show ptTwoDays.dates = [8, 11] from rfl,
    show ptTwoDays.price 11 "A" = some 1 from rfl,
    show ptTwoDays.price 11 "B" = some 1 from rfl,
    show ptTwoDays.price 8 "A" = some 1 from rfl,
    show ptTwoDays.price 8 "B" = some 1 from rfl,
    account_value, target_weights, dget, dgetD, dkeys, cleanupPositions,
    List.indexOf, List.findIdx, List.findIdx.go, List.filterMap_cons, List.filterMap_nil,
    hb, hg, hsc, hpk, hcw, hts, hsell, hbuy,
    show Int.fdiv 9 7 = 1 from by decide, show Int.fdiv 6 7 = 0 from by decide,
    abs, max_def, max_self, show ¬("A" = "B") from by decide, show ¬("B" = "A") from by decide,
    show (("A":String) == "A") = true from by decide,
    show (("B":String) == "A") = false from by decide,
    show (("A":String) == "B") = false from by decide,
    show (("B":String) == "B") = true from by decide,
    show (("B":String) != "A") = true from by decide,
    show (((1:Int) != 0)) = true from by decide,
    show (((0:Int) != 0)) = false from by decide,
    show (((8:Int) == 11)) = false from by decide,
    show (((11:Int) == 11)) = true from by decide,
    show ¬(RiskState.NORMAL = RiskState.CIRCUIT_COOLDOWN) from by decide,
    show ¬(RiskState.NORMAL = RiskState.DE_RISK) from by decide]

/-! ### C7: sells before buys, defensive last, affordability retry loop -/

theorem foldl_trades_append {α : Type} (f : ExecState → α → ExecState)
    (Q : α → TradeRec → Prop)
    (hf : ∀ st x, ∃ add, (f st x).trades = st.trades ++ add ∧ ∀ r ∈ add, Q x r) :
    ∀ (l : List α) (st : ExecState),
      ∃ rows, (l.foldl f st).trades = st.trades ++ rows ∧
        ∀ r ∈ rows, ∃ x ∈ l, Q x r := by
  intro l
  induction l with
  | nil => intro st; exact ⟨[], by simp, by simp⟩
  | cons x rest ih =>
    intro st
    rcases hf st x with ⟨add, ha1, ha2⟩
    rcases ih (f st x) with ⟨rows, h1, h2⟩
    refine ⟨add ++ rows, ?_, ?_⟩
    · simp only [List.foldl_cons, h1, ha1, List.append_assoc]
    · intro r hr
      rcases List.mem_append.mp hr with hr | hr
      · exact ⟨x, List.mem_cons_self x rest, ha2 r hr⟩
      · rcases h2 r hr with ⟨y, hy, hq⟩
        exact ⟨y, List.mem_cons_of_mem x hy, hq⟩

theorem sellPhase_trades (cm : CostModel) (px : Sym → Option ℚ)
    (pre ts : List (Sym × Int)) (st : ExecState) :
    ∃ rows, (sellPhase cm px pre ts st).trades = st.trades ++ rows ∧
      ∀ r ∈ rows, r.action = TradeAction.SELL := by
  unfold sellPhase
  refine Exists.imp (fun rows h => ⟨h.1, fun r hr => ((h.2 r hr).choose_spec).2⟩)
    (foldl_trades_append _ (fun _ r => r.action = TradeAction.SELL) ?_ ts st)
  intro st x
  dsimp only
  by_cases hd : x.2 - dgetD st.positions x.1 (dgetD pre x.1 0) ≥ 0
  · rw [if_pos hd]; exact ⟨[], by simp, by simp⟩
  · rw [if_neg hd]
    cases hpx : px x.1 with
    | none => exact ⟨[], by simp, by simp⟩
    | some pxv =>
      dsimp only
      by_cases hp0 : pxv ≤ 0
      · rw [if_pos hp0]; exact ⟨[], by simp, by simp⟩
      · rw [if_neg hp0]
        refine ⟨_, rfl, ?_⟩
        intro r hr
        simp only [List.mem_singleton] at hr
        subst hr
        rfl

/-- What one buy-loop step guarantees about the rows it appends. -/
def buyRowQ (s : Sym) (r : TradeRec) : Prop :=
  r.symbol = s ∧ (r.action = TradeAction.BUY ∨ r.action = TradeAction.HOLD) ∧
    (r.action = TradeAction.HOLD → r.delta = 0 ∧ r.cost = 0)

theorem buyFold_trades (cm : CostModel) (px : Sym → Option ℚ)
    (pre ts : List (Sym × Int)) (syms : List Sym) (st : ExecState) :
    ∃ rows,
      (syms.foldl
        (fun st s =>
          let tgt := dgetD ts s 0
          let cur := dgetD st.positions s (dgetD pre s 0)
          let delta := tgt - cur
          if delta ≤ 0 then st
          else match px s with
            | none => st
            | some px =>
              if px ≤ 0 then st
              else
                match tryBuy cm s st.cash px delta.toNat with
                | some (buy, cost) =>
                  { cash := st.cash - ((buy : ℚ) * px + cost),
                    positions := dset st.positions s (cur + (buy : Int)),
                    cost_by_symbol := dset st.cost_by_symbol s
                      (dgetD st.cost_by_symbol s 0 + cost),
                    trades := st.trades ++
                      [⟨s, TradeAction.BUY, cur, tgt, (buy : Int), px, cost⟩] }
                | none =>
                  let tgt2 := dgetD st.positions s cur
                  { st with trades := st.trades ++
                      [⟨s, TradeAction.HOLD, cur, tgt2, 0, px, 0⟩] }) st).trades
        = st.trades ++ rows ∧
      ∀ r ∈ rows, ∃ x ∈ syms, buyRowQ x r := by
  refine foldl_trades_append _ buyRowQ ?_ syms st
  intro st s
  dsimp only
  by_cases hd : dgetD ts s 0 - dgetD st.positions s (dgetD pre s 0) ≤ 0
  · rw [if_pos hd]; exact ⟨[], by simp, by simp⟩
  · rw [if_neg hd]
    cases hpx : px s with
    | none => exact ⟨[], by simp, by simp⟩
    | some pxv =>
      dsimp only
      by_cases hp0 : pxv ≤ 0
      · rw [if_pos hp0]; exact ⟨[], by simp, by simp⟩
      · rw [if_neg hp0]
        cases htb : tryBuy cm s st.cash pxv
            (dgetD ts s 0 - dgetD st.positions s (dgetD pre s 0)).toNat with
        | some bc =>
          obtain ⟨buy, cost⟩ := bc
          refine ⟨_, rfl, ?_⟩
          intro r hr
          simp only [List.mem_singleton] at hr
          subst hr
          exact ⟨rfl, Or.inl rfl, by intro h; exact absurd h (by simp)⟩
        | none =>
          refine ⟨_, rfl, ?_⟩
          intro r hr
          simp only [List.mem_singleton] at hr
          subst hr
          exact ⟨rfl, Or.inr rfl, fun _ => ⟨rfl, rfl⟩⟩

/-- `buyPhase` rewritten through `buyFold_trades`: the appended rows are
BUY or zero-share HOLD rows, and every row for the defensive symbol comes
after every row for any other symbol (the defensive symbol is processed
last). -/
theorem buyPhase_trades (cm : CostModel) (defensive : Sym)
    (px : Sym → Option ℚ) (pre ts : List (Sym × Int)) (st : ExecState)
    (hnd : (dkeys ts).Nodup) :
    ∃ rows, (buyPhase cm defensive px pre ts st).trades = st.trades ++ rows ∧
      (∀ r ∈ rows, (r.action = TradeAction.BUY ∨ r.action = TradeAction.HOLD) ∧
        (r.action = TradeAction.HOLD → r.delta = 0 ∧ r.cost = 0)) ∧
      (∀ i j ri rj, rows.get? i = some ri → rows.get? j = some rj →
        ri.symbol = defensive → rj.symbol ≠ defensive → j < i) := by
  unfold buyPhase
  by_cases hc : (dkeys ts).contains defensive
  · rw [if_pos hc]
    rw [List.foldl_append]
    obtain ⟨rowsL, hL1, hL2⟩ :=
      buyFold_trades cm px pre ts ((dkeys ts).erase defensive) st
    obtain ⟨rowsD, hD1, hD2⟩ := buyFold_trades cm px pre ts [defensive] _
    refine ⟨rowsL ++ rowsD, by rw [hD1, hL1, List.append_assoc], ?_, ?_⟩
    · intro r hr
      rcases List.mem_append.mp hr with hr | hr
      · exact ((hL2 r hr).choose_spec.2).2
      · exact ((hD2 r hr).choose_spec.2).2
    · intro i j ri rj hi hj hri hrj
      have hiL : rowsL.length ≤ i := by
        by_contra hlt
        push_neg at hlt
        have : rowsL.get? i = some ri := by
          rw [← hi, List.get?_append hlt]
        have hmem : ri ∈ rowsL := List.get?_mem this
        rcases hL2 ri hmem with ⟨x, hx, hq⟩
        have hxd : x = defensive := by rw [← hq.1, hri]
        rw [hxd] at hx
        exact absurd ((List.Nodup.mem_erase_iff hnd).mp hx).1 (by simp)
      have hjL : j < rowsL.length := by
        by_contra hge
        push_neg at hge
        have : rowsD.get? (j - rowsL.length) = some rj := by
          rw [← hj]
          exact (List.get?_append_right hge).symm
        have hmem : rj ∈ rowsD := List.get?_mem this
        rcases hD2 rj hmem with ⟨x, hx, hq⟩
        simp only [List.mem_singleton] at hx
        subst hx
        exact hrj hq.1
      omega
  · rw [if_neg hc]
    obtain ⟨rows, h1, h2⟩ := buyFold_trades cm px pre ts (dkeys ts) st
    refine ⟨rows, h1, ?_, ?_⟩
    · intro r hr
      exact ((h2 r hr).choose_spec.2).2
    · intro i j ri rj hi _ hri _
      exfalso
      have hmem : ri ∈ rows := List.get?_mem hi
      rcases h2 ri hmem with ⟨x, hx, hq⟩
      have hxd : x = defensive := by rw [← hq.1, hri]
      rw [hxd] at hx
      exact absurd hx (by simpa using hc)

theorem dkeys_map_fst_preserved {α β : Type} {l : List (Sym × α)}
    {f : Sym × α → Sym × β} (hf : ∀ p, (f p).1 = p.1) :
    dkeys (l.map f) = dkeys l := by
  unfold dkeys
  rw [List.map_map]
  exact List.map_congr_left (fun p _ => hf p)

theorem dset_keys_nodup {α : Type} {m : List (Sym × α)} {k : Sym} {v : α}
    (h : (dkeys m).Nodup) : (dkeys (dset m k v)).Nodup := by
  unfold dset
  by_cases hf : (m.find? (fun p => p.1 == k)).isSome
  · rw [if_pos hf, dkeys_map_fst_preserved]
    · exact h
    · intro p
      dsimp only
      by_cases hp : (p.1 == k) = true
      · rw [if_pos hp]
        exact (beq_iff_eq.mp hp).symm
      · rw [if_neg hp]
  · rw [if_neg hf]
    have hk : k ∉ dkeys m := by
      intro hk
      rcases List.mem_map.mp hk with ⟨p, hp, he⟩
      have := List.find?_eq_none.mp (Option.not_isSome_iff_eq_none.mp hf) p hp
      rw [he] at this
      simp at this
    have : dkeys (m ++ [(k, v)]) = dkeys m ++ [k] := by
      unfold dkeys
      rw [List.map_append]
      rfl
    rw [this]
    rw [List.nodup_append]
    refine ⟨h, List.nodup_singleton k, ?_⟩
    intro a ha hb
    rw [List.mem_singleton] at hb
    subst hb
    exact hk ha

theorem target_weights_keys_nodup (st : RiskState) (w d : Sym) (nw dw : ℚ) :
    (dkeys (target_weights st w d nw dw)).Nodup := by
  unfold target_weights
  split_ifs
  · simp [dkeys]
  · exact dset_keys_nodup (dset_keys_nodup (by simp [dkeys]))
  · simp [dkeys]

theorem band_map_keys (tw0 cwl : List (Sym × ℚ)) (band : ℚ) :
    dkeys (tw0.map (fun p =>
      if |p.2 - dgetD cwl p.1 0| < band then (p.1, dgetD cwl p.1 0) else p))
    = dkeys tw0 := by
  refine dkeys_map_fst_preserved ?_
  intro p
  dsimp only
  split_ifs <;> rfl

theorem targetSharesOf_keys_nodup {tw : List (Sym × ℚ)}
    {pre : List (Sym × Int)} {px : Sym → Option ℚ} {pv : ℚ}
    (h : (dkeys tw).Nodup) :
    (dkeys (targetSharesOf tw pre px pv)).Nodup := by
  unfold targetSharesOf
  have hbase : (dkeys (tw.map (fun p =>
      (p.1, if (px p.1).getD 0 > 0 then ⌊pv * p.2 / (px p.1).getD 0⌋ else 0)))).Nodup := by
    unfold dkeys
    rw [List.map_map]
    exact h
  generalize tw.map _ = base at hbase ⊢
  induction dkeys pre generalizing base with
  | nil => exact hbase
  | cons s rest ih =>
    simp only [List.foldl_cons]
    by_cases hc : (dkeys base).contains s
    · rw [if_pos hc]
      exact ih _ hbase
    · rw [if_neg hc]
      refine ih _ ?_
      have hs : s ∉ dkeys base := by simpa using hc
      have : dkeys (base ++ [(s, (0 : Int))]) = dkeys base ++ [s] := by
        unfold dkeys
        rw [List.map_append]
        rfl
      rw [this, List.nodup_append]
      refine ⟨hbase, List.nodup_singleton s, ?_⟩
      intro a ha hb
      rw [List.mem_singleton] at hb
      subst hb
      exact hs ha

/-- The buy loop's affordability test at a count `j`: the cash covers
`value + cost` up to the `1e-6` tolerance. -/
def affordableBuy (cm : CostModel) (s : Sym) (cash px : ℚ) (j : Nat) : Prop :=
  cash ≥ (j : ℚ) * px + estCostFor cm s ((j : ℚ) * px) 0 - 1 / 1000000

theorem tryBuy_spec (cm : CostModel) (s : Sym) (cash px : ℚ) (n : Nat) :
    (∀ k c, tryBuy cm s cash px n = some (k, c) →
      1 ≤ k ∧ k ≤ n ∧ affordableBuy cm s cash px k ∧
      (∀ j, k < j → j ≤ n → ¬ affordableBuy cm s cash px j) ∧
      c = estCostFor cm s ((k : ℚ) * px) 0) ∧
    (tryBuy cm s cash px n = none →
      ∀ j, 1 ≤ j → j ≤ n → ¬ affordableBuy cm s cash px j) := by
  induction n with
  | zero =>
    constructor
    · intro k c h
      simp [tryBuy] at h
    · intro _ j h1 h2
      omega
  | succ b ih =>
    have hunf : tryBuy cm s cash px (b + 1)
        = if cash ≥ ((b : ℚ) + 1) * px
            + estCostFor cm s (((b : ℚ) + 1) * px) 0 - 1 / 1000000 then
            some (b + 1, estCostFor cm s (((b : ℚ) + 1) * px) 0)
          else tryBuy cm s cash px b := by
      simp only [tryBuy, Nat.cast_add, Nat.cast_one]
    have haff : affordableBuy cm s cash px (b + 1) ↔
        cash ≥ ((b : ℚ) + 1) * px
          + estCostFor cm s (((b : ℚ) + 1) * px) 0 - 1 / 1000000 := by
      unfold affordableBuy
      rw [Nat.cast_add, Nat.cast_one]
    constructor
    · intro k c h
      rw [hunf] at h
      split_ifs at h with hc
      · injection h with h'
        injection h' with h1 h2
        subst h1
        subst h2
        refine ⟨by omega, le_rfl, haff.mpr hc, ?_, by
          rw [Nat.cast_add, Nat.cast_one]⟩
        intro j hj1 hj2
        exact absurd hj2 (by omega)
      · obtain ⟨g1, g2, g3, g4, g5⟩ := ih.1 k c h
        refine ⟨g1, by omega, g3, ?_, g5⟩
        intro j hj1 hj2
        rcases Nat.lt_or_ge j (b + 1) with hj | hj
        · exact g4 j hj1 (by omega)
        · have : j = b + 1 := by omega
          subst this
          exact fun ha => hc (haff.mp ha)
    · intro h j h1 h2
      rw [hunf] at h
      split_ifs at h with hc
      rcases Nat.lt_or_ge j (b + 1) with hj | hj
      · exact ih.2 h j h1 (by omega)
      · have : j = b + 1 := by omega
        subst this
        exact fun ha => hc (haff.mp ha)

theorem run_paper_once_errors (std : List ℚ → ℚ) (pt : PriceTable)
    (equity_etfs : List Sym) (defensive_etf : Sym)
    (stored : Option PaperAccount) (initial_capital no_trade_band : ℚ)
    (nDays mWeeks : Nat) (vf : ℚ) (gcfg : RiskGateCfg) (alloc : AllocationCfg)
    (cm : CostModel) (e : String)
    (h : run_paper_once std pt equity_etfs defensive_etf stored
      initial_capital no_trade_band nDays mWeeks vf gcfg alloc cm
      = Except.error e) :
    e = msgNoWeekly ∨ e = msgUpToDate ∨ e = msgIndex ∨ e = msgNoEquity := by
  simp only [run_paper_once] at h
  split at h
  · rw [Except.error.injEq] at h
    exact Or.inl h.symm
  · split at h
    · rw [Except.error.injEq] at h
      exact Or.inr (Or.inl h.symm)
    · split at h
      · rw [Except.error.injEq] at h
        exact Or.inr (Or.inr (Or.inl h.symm))
      · split at h
        · rw [Except.error.injEq] at h
          exact Or.inr (Or.inr (Or.inr h.symm))
        · exact Except.noConfusion h

theorem phase_trades (cm : CostModel) (defensive : Sym) (px : Sym → Option ℚ)
    (pre ts : List (Sym × Int)) (cash0 : ℚ) (pos0 : List (Sym × Int))
    (hnd : (dkeys ts).Nodup) :
    ∃ sellRows buyRows,
      (buyPhase cm defensive px pre ts (sellPhase cm px pre ts
        { cash := cash0, positions := pos0, cost_by_symbol := [],
          trades := [] })).trades = sellRows ++ buyRows ∧
      (∀ r ∈ sellRows, r.action = TradeAction.SELL) ∧
      (∀ r ∈ buyRows, (r.action = TradeAction.BUY ∨ r.action = TradeAction.HOLD) ∧
        (r.action = TradeAction.HOLD → r.delta = 0 ∧ r.cost = 0)) ∧
      (∀ i j ri rj, buyRows.get? i = some ri → buyRows.get? j = some rj →
        ri.symbol = defensive → rj.symbol ≠ defensive → j < i) := by
  obtain ⟨bRows, hb1, hb2, hb3⟩ := buyPhase_trades cm defensive px pre ts
    (sellPhase cm px pre ts
      { cash := cash0, positions := pos0, cost_by_symbol := [], trades := [] })
    hnd
  obtain ⟨sRows, hs1, hs2⟩ := sellPhase_trades cm px pre ts
    { cash := cash0, positions := pos0, cost_by_symbol := [], trades := [] }
  refine ⟨sRows, bRows, ?_, hs2, hb2, hb3⟩
  rw [hb1, hs1]
  simp

/-- C7: in every paper-trading advance the trade list is the sell rows
followed by the buy/HOLD rows (sells execute first); within the buy
section every row for the defensive symbol comes after every other row
(the defensive symbol is processed last); each buy attempts the full
desired delta and reduces the count by one until affordable (the executed
count is the largest affordable one) or zero, a zero count being recorded
as a HOLD row with zero shares and zero cost; and `run_paper_once` can
only fail with the four data/selection errors — a cash-insufficient buy
never raises. -/
theorem C7_sell_buy_order_and_retry :
    (∀ (std : List ℚ → ℚ) (pt : PriceTable) (symbols equity_etfs : List Sym)
      (e0 defensive_etf : Sym) (a : PaperAccount) (band : ℚ)
      (nDays mWeeks : Nat) (vf : ℚ) (gcfg : RiskGateCfg) (alloc : AllocationCfg)
      (cm : CostModel) (td sd : Date),
      ∃ sellRows buyRows,
        (paperSettle std pt symbols equity_etfs e0 defensive_etf a band nDays
          mWeeks vf gcfg alloc cm td sd).trades = sellRows ++ buyRows ∧
        (∀ r ∈ sellRows, r.action = TradeAction.SELL) ∧
        (∀ r ∈ buyRows, (r.action = TradeAction.BUY ∨ r.action = TradeAction.HOLD) ∧
          (r.action = TradeAction.HOLD → r.delta = 0 ∧ r.cost = 0)) ∧
        (∀ i j ri rj, buyRows.get? i = some ri → buyRows.get? j = some rj →
          ri.symbol = defensive_etf → rj.symbol ≠ defensive_etf → j < i)) ∧
    (∀ (cm : CostModel) (s : Sym) (cash px : ℚ) (n k : Nat) (c : ℚ),
      (tryBuy cm s cash px n = some (k, c) →
        1 ≤ k ∧ k ≤ n ∧ affordableBuy cm s cash px k ∧
        (∀ j, k < j → j ≤ n → ¬ affordableBuy cm s cash px j) ∧
        c = estCostFor cm s ((k : ℚ) * px) 0) ∧
      (tryBuy cm s cash px n = none →
        ∀ j, 1 ≤ j → j ≤ n → ¬ affordableBuy cm s cash px j)) ∧
    (∀ (std : List ℚ → ℚ) (pt : PriceTable) (equity_etfs : List Sym)
      (defensive_etf : Sym) (stored : Option PaperAccount)
      (initial_capital no_trade_band : ℚ) (nDays mWeeks : Nat) (vf : ℚ)
      (gcfg : RiskGateCfg) (alloc : AllocationCfg) (cm : CostModel) (e : String),
      run_paper_once std pt equity_etfs defensive_etf stored initial_capital
        no_trade_band nDays mWeeks vf gcfg alloc cm = Except.error e →
      e = msgNoWeekly ∨ e = msgUpToDate ∨ e = msgIndex ∨ e = msgNoEquity) := by
  refine ⟨?_, fun cm s cash px n k c =>
      ⟨fun h => (tryBuy_spec cm s cash px n).1 k c h,
       fun h => (tryBuy_spec cm s cash px n).2 h⟩,
    fun std pt eq de st ic band nD mW vf gcfg alloc cm e h =>
      run_paper_once_errors std pt eq de st ic band nD mW vf gcfg alloc cm e h⟩
  intro std pt symbols equity_etfs e0 defensive_etf a band nDays mWeeks vf
    gcfg alloc cm td sd
  simp only [paperSettle]
  refine phase_trades cm defensive_etf (pt.price td) a.positions _ _ _ ?_
  refine targetSharesOf_keys_nodup ?_
  rw [band_map_keys]
  exact target_weights_keys_nodup _ _ _ _ _

/-- Witness for C7's retry characterization at a concrete buy: with 100 of
cash, price 1, desired 50 shares and minimum commission 5, the loop
accepts the full 50 at cost 5 on the first try, the largest affordable
count. -/
theorem C7_sell_buy_order_and_retry_witness :
    1 ≤ 50 ∧ 50 ≤ 50 ∧
    affordableBuy ⟨3/10000, 5, 0, 0⟩ "A" 100 1 50 ∧
    (∀ j, 50 < j → j ≤ 50 → ¬ affordableBuy ⟨3/10000, 5, 0, 0⟩ "A" 100 1 j) ∧
    (5 : ℚ) = estCostFor ⟨3/10000, 5, 0, 0⟩ "A" (((50 : Nat) : ℚ) * 1) 0 :=
  (C7_sell_buy_order_and_retry.2.1 ⟨3/10000, 5, 0, 0⟩ "A" 100 1 50 50 5).1
    (by norm_num [tryBuy, estCostFor, CostModel.estimate_for_rebalance, max_def])

end Rotator
